import Mathlib

/-!
Verification of the ORFix INI rewriter (src/Old/ORFixForComplexMods.py).

The development shallowly embeds the two core routines of the script:

* `process_block_full` — the block transformer: optional `ps-t0` → `ps-t1`
  rename, removal of misplaced `run = CommandList\global\ORFix\…` directive
  lines, and insertion of the canonical directive after the last slot
  assignment recorded per indentation depth;
* `process_ini_preview` — the line tokenizer / state machine that segments a
  file into sections and swap-conditional blocks and flushes each block
  through the transformer.

Lines are modelled as Lean `String`s (the script reads them with
`readlines()`, so each input line holds at most one `'\n'`, at its end).
Regular-expression tests from the source are translated into explicit
character-list matchers.  Python's `dict` keyed by indentation depth is
modelled as an insertion-ordered association list.
-/

set_option autoImplicit false

namespace ORFix

/-! ### Character and string primitives (Python `str` operations) -/

/-- Python's default whitespace set for `str.strip` / `str.lstrip` and `\s`. -/
def isPySpace (c : Char) : Bool :=
  c = ' ' || c = '\t' || c = '\n' || c = '\r' || c = '\x0b' || c = '\x0c'

/-- Leading-whitespace removal on a character list (`str.lstrip`). -/
def dropSpaces (s : List Char) : List Char := s.dropWhile isPySpace

/-- Trailing-whitespace removal (`str.rstrip`). -/
def stripTrail (s : List Char) : List Char := (s.reverse.dropWhile isPySpace).reverse

/-- Both-ends whitespace removal (`str.strip`). -/
def stripBoth (s : List Char) : List Char := stripTrail (dropSpaces s)

/-- `line.lstrip()` as a `String` operation. -/
def pyLstrip (s : String) : String := ⟨dropSpaces s.data⟩

/-- `line.strip()` as a `String` operation. -/
def pyStrip (s : String) : String := ⟨stripBoth s.data⟩

/-- `len(line) - len(line.lstrip())`: the indentation depth of a line. -/
def indentOf (s : String) : Nat := s.data.length - (dropSpaces s.data).length

/-- Substring occurrence on character lists: `pat` occurs contiguously. -/
def occursIn (pat : List Char) : List Char → Bool
  | [] => pat.isEmpty
  | c :: rest => pat.isPrefixOf (c :: rest) || occursIn pat rest

/-- `"needle" in s` (Python substring test). -/
def containsSub (needle s : String) : Bool := occursIn needle.data s.data

/-- Case-insensitive prefix matcher: on success returns the remainder of the
input after the matched prefix.  Models matching a literal under
`re.IGNORECASE`. -/
def stripPrefixCI : List Char → List Char → Option (List Char)
  | [], s => some s
  | _ :: _, [] => none
  | p :: ps, c :: cs => if p.toLower = c.toLower then stripPrefixCI ps cs else none

/-! ### Line classifiers (the regexes of the source) -/

/-- `re.match(r'ps-t\d+', stripped)`:  literal `ps-t` followed by at least one
digit, case-sensitive, anchored at the start. -/
def psAnyL : List Char → Bool
  | 'p' :: 's' :: '-' :: 't' :: c :: _ => c.isDigit
  | _ => false

/-- `re.match(r'ps-t0\s*=', stripped)`: literal `ps-t0`, optional whitespace,
then `=`, case-sensitive, anchored at the start. -/
def psT0eqL (s : List Char) : Bool :=
  match s with
  | 'p' :: 's' :: '-' :: 't' :: '0' :: r =>
    match dropSpaces r with
    | '=' :: _ => true
    | _ => false
  | _ => false

/-- `RUN_LINE_PATTERN.match(line)`:
`\s*run\s*=\s*CommandList\\global\\ORFix\\(NNFix|ORFix)`, `re.IGNORECASE`,
anchored at the start of the raw line. -/
def matchRunL (s : List Char) : Bool :=
  match stripPrefixCI "run".data (dropSpaces s) with
  | none => false
  | some r1 =>
    match dropSpaces r1 with
    | '=' :: r2 =>
      match stripPrefixCI "commandlist\\global\\orfix\\".data (dropSpaces r2) with
      | none => false
      | some r3 => (stripPrefixCI "nnfix".data r3).isSome || (stripPrefixCI "orfix".data r3).isSome
    | _ => false

/-- `re.match(r'\s*endif', line, re.IGNORECASE)`. -/
def matchEndifL (s : List Char) : Bool :=
  (stripPrefixCI "endif".data (dropSpaces s)).isSome

/-- `SWAPVAR_PATTERN.match(line)`:
`^\s*(if|else if)\s+\$swapvar\s*==\s*(\d+)` under `re.IGNORECASE`.  Returns the
digit group (`match.group(2)`), which the tokenizer stores in
`current_swapvar`.  The alternation is safe to evaluate without backtracking
because `if` and `else if` start with distinct characters. -/
def matchSwapL (s : List Char) : Option String :=
  let s1 := dropSpaces s
  let afterKw :=
    match stripPrefixCI "if".data s1 with
    | some r => some r
    | none => stripPrefixCI "else if".data s1
  match afterKw with
  | none => none
  | some r =>
    match r with
    | [] => none
    | c :: r1 =>
      if isPySpace c then
        match stripPrefixCI "$swapvar".data (dropSpaces r1) with
        | none => none
        | some r2 =>
          match dropSpaces r2 with
          | '=' :: '=' :: r3 =>
            let ds := (dropSpaces r3).takeWhile Char.isDigit
            if ds.isEmpty then none else some ⟨ds⟩
          | _ => none
      else none

/-- Section-header test of the tokenizer:
`stripped.startswith("[CommandList") or stripped.startswith("[TextureOverride")`
(case-sensitive, on the both-ends-stripped line). -/
def isHeaderLine (line : String) : Bool :=
  let st := stripBoth line.data
  "[CommandList".data.isPrefixOf st || "[TextureOverride".data.isPrefixOf st

/-- One auto-exclusion pattern `^\[(CommandList|TextureOverride).*SUF$` under
`re.IGNORECASE`, on a stripped (newline-free) section name: the regex matches
iff the string starts with the prefix, ends with the suffix, and is long
enough that the two do not overlap. -/
def autoExcludeOne (pre suf : List Char) (s : List Char) : Bool :=
  (stripPrefixCI pre s).isSome && (stripPrefixCI suf.reverse s.reverse).isSome &&
    decide (pre.length + suf.length ≤ s.length)

/-- `any(pat.match(section) for pat in AUTO_EXCLUDE_PATTERNS)`: the six
suffixes IB, Position, Texcoord, Blend, Info, VertexLimitRaise, each paired
with the `[CommandList` / `[TextureOverride` prefixes. -/
def autoExclude (s : String) : Bool :=
  ["ib]", "position]", "texcoord]", "blend]", "info]", "vertexlimitraise]"].any fun suf =>
    autoExcludeOne "[commandlist".data suf.data s.data ||
      autoExcludeOne "[textureoverride".data suf.data s.data

/-! ### The block transformer `process_block_full` -/

/-- The two canonical directive lines of the script. -/
def orfixRun : String := "run = CommandList\\global\\ORFix\\ORFix\n"

def nnfixRun : String := "run = CommandList\\global\\ORFix\\NNFix\n"

/-- A change record, one per entry the Python code appends to `changes`
(each models the corresponding f-string: its tag and interpolated data). -/
inductive Change where
  | renamed (sect : Option String) (bef : String) (aft : String)
  | removedRun (sect : Option String) (line : String)
  | addedRun (sect : Option String) (line : String)
deriving DecidableEq, Repr

/-- `has_normal = any("NormalMap" in line for line in block)`. -/
def hasNormal (block : List String) : Bool := block.any fun l => containsSub "NormalMap" l

/-- `correct_run`, chosen by the NormalMap-marker rule. -/
def correctRun (block : List String) : String :=
  if hasNormal block then orfixRun else nnfixRun

/-- The rename trigger:
`re.match(r'ps-t0\s*=', stripped) and "Extra" in stripped and "Diffuse" in stripped`. -/
def renameCond (line : String) : Bool :=
  let st := pyLstrip line
  psT0eqL st.data && containsSub "Extra" st && containsSub "Diffuse" st

/-- `s.replace(pat, repl, 1)`: replace the first occurrence only. -/
def replaceFirst (pat repl : List Char) : List Char → List Char
  | [] => []
  | c :: rest =>
    if pat.isPrefixOf (c :: rest) then repl ++ (c :: rest).drop pat.length
    else c :: replaceFirst pat repl rest

/-- `line.replace("ps-t0", "ps-t1", 1)`. -/
def renameApply (line : String) : String :=
  ⟨replaceFirst "ps-t0".data "ps-t1".data line.data⟩

/-- Insertion-ordered association-list update, modelling Python's
`d[k] = v` on a `dict` (overwrites in place, otherwise appends). -/
def tableSet : List (Nat × Nat) → Nat → Nat → List (Nat × Nat)
  | [], k, v => [(k, v)]
  | (k', v') :: r, k, v => if k' = k then (k, v) :: r else (k', v') :: tableSet r k v

/-- State of the first loop of `process_block_full`: the rebuilt block, the
change records so far, and `last_ps_indices`. -/
structure Pass1State where
  newBlock : List String
  changes : List Change
  table : List (Nat × Nat)
deriving Repr

/-- One iteration of the first loop: optional rename of a qualifying `ps-t0`
line, then recording of `last_ps_indices[indent] = len(new_block) - 1` for
slot-assignment lines (the tests use the original line's `lstrip`, exactly as
the Python local `stripped` does). -/
def pass1Step (rename : Bool) (sect : Option String) (st : Pass1State) (line : String) :
    Pass1State :=
  let stripped := pyLstrip line
  let st1 :=
    if rename && renameCond line then
      { st with newBlock := st.newBlock ++ [renameApply line],
                changes := st.changes ++ [.renamed sect stripped (renameApply stripped)] }
    else { st with newBlock := st.newBlock ++ [line] }
  if psAnyL stripped.data then
    { st1 with table := tableSet st1.table (indentOf line) (st1.newBlock.length - 1) }
  else st1

/-- The first loop of `process_block_full`. -/
def pass1 (rename : Bool) (sect : Option String) (block : List String) : Pass1State :=
  block.foldl (pass1Step rename sect) ⟨[], [], []⟩

/-- The second loop ("Remove misplaced run lines"), walking the renamed block
with its enumeration index: a directive line is kept iff its indentation is a
table key, it sits immediately after the recorded index, and it equals
`correct_run` exactly; every other directive line is dropped and recorded. -/
def removalPass (sect : Option String) (correct : String) (table : List (Nat × Nat)) :
    Nat → List String → List String × List Change
  | _, [] => ([], [])
  | i, line :: rest =>
    let r := removalPass sect correct table (i + 1) rest
    if matchRunL line.data then
      if (match table.lookup (indentOf line) with
          | some li => decide (i = li + 1)
          | none => false) && line == correct then
        (line :: r.1, r.2)
      else (r.1, .removedRun sect (pyStrip line) :: r.2)
    else (line :: r.1, r.2)

/-- Python's `list.insert(i, x)`: clamps an out-of-range index to an append. -/
def pyInsert (i : Nat) (x : String) (l : List String) : List String :=
  l.take i ++ x :: l.drop i

/-- One iteration of the third loop ("Insert run lines after last ps-t per
indentation if missing").  `acc` carries the current block, the live
`last_ps_indices` dict (mutated by the index-adjustment inner loop), and the
change records.  The guard `len(new_block) > insert_index and
new_block[insert_index] == correct_run` is exactly the success of the `[·]?`
lookup here. -/
def insertStep (sect : Option String) (correct : String)
    (acc : List String × List (Nat × Nat) × List Change) (item : Nat × Nat) :
    List String × List (Nat × Nat) × List Change :=
  let ii := item.2 + 1
  if acc.1[ii]? == some correct then acc
  else
    (pyInsert ii correct acc.1,
     acc.2.1.map fun kv => if ii ≤ kv.2 then (kv.1, kv.2 + 1) else kv,
     acc.2.2 ++ [.addedRun sect (pyStrip correct)])

/-- Insertion sort of the `(indent, last_index)` pairs by indent.  Models
Python's `sorted(last_ps_indices.items())`: the dict's keys are distinct, so
lexicographic tuple order is determined by the keys alone. -/
def insertPair (x : Nat × Nat) : List (Nat × Nat) → List (Nat × Nat)
  | [] => [x]
  | y :: r => if x.1 ≤ y.1 then x :: y :: r else y :: insertPair x r

def sortPairs : List (Nat × Nat) → List (Nat × Nat)
  | [] => []
  | x :: r => insertPair x (sortPairs r)

/-- `process_block_full(block, section_name, is_excluded)` with the global
toggle `rename_extra_ps` passed explicitly.  Note that Python's
`sorted(last_ps_indices.items())` materializes a snapshot before the loop
runs: the inner index-adjustment mutates the dict, never that snapshot, so
later iterations still see the original `last_index` values.  The fold below
reproduces this by iterating over `sortPairs p1.table` while threading the
(mutated but never re-read) dict through the accumulator. -/
def process_block_full (block : List String) (sectionName : Option String)
    (isExcluded : Bool) (rename : Bool) : List String × List Change :=
  if block.isEmpty || isExcluded then (block, [])
  else
    let correct := correctRun block
    let p1 := pass1 rename sectionName block
    let rem := removalPass sectionName correct p1.table 0 p1.newBlock
    let ins := (sortPairs p1.table).foldl (insertStep sectionName correct) (rem.1, p1.table, [])
    (ins.1, p1.changes ++ rem.2 ++ ins.2.2)

/-! ### The tokenizer `process_ini_preview` -/

/-- The local state of the tokenizer loop (one field per Python local;
`current_swapvar` is written by the source but never read). -/
structure TokState where
  newLines : List String
  blockLines : List String
  currentSection : Option String
  insideSection : Bool
  insideExcluded : Bool
  currentSwapvar : Option String
  allChanges : List Change
deriving Repr

def initState : TokState := ⟨[], [], none, false, false, none, []⟩

/-- Flush the pending block through the transformer and append its output. -/
def flushBlock (rename : Bool) (st : TokState) : TokState :=
  let r := process_block_full st.blockLines st.currentSection st.insideExcluded rename
  { st with newLines := st.newLines ++ r.1, allChanges := st.allChanges ++ r.2,
            blockLines := [] }

/-- `if block_lines: process…; clear` — flush only a non-empty pending block. -/
def flushIfPending (rename : Bool) (st : TokState) : TokState :=
  if st.blockLines.isEmpty then st else flushBlock rename st

/-- One iteration of the tokenizer loop, in the source's branch order:
section header, swap-conditional open, `endif` inside a section, other line
inside a section, line outside any section. -/
def stepLine (excl : List String) (rename : Bool) (st : TokState) (line : String) : TokState :=
  let stripped := pyStrip line
  if isHeaderLine line then
    let st1 := flushIfPending rename st
    { st1 with currentSection := some stripped, insideSection := true,
               insideExcluded := autoExclude stripped || excl.contains stripped,
               currentSwapvar := none,
               newLines := st1.newLines ++ [line],
               blockLines := [] }
  else
    match matchSwapL line.data with
    | some d =>
      let st1 := flushIfPending rename st
      { st1 with currentSwapvar := some d, blockLines := [line] }
    | none =>
      if st.insideSection && matchEndifL line.data then
        let st1 := flushBlock rename { st with blockLines := st.blockLines ++ [line] }
        { st1 with currentSwapvar := none }
      else if st.insideSection then { st with blockLines := st.blockLines ++ [line] }
      else { st with newLines := st.newLines ++ [line] }

def runLines (excl : List String) (rename : Bool) (st : TokState) (lines : List String) :
    TokState :=
  lines.foldl (stepLine excl rename) st

/-- `process_ini_preview`, with the file content passed as its line list, the
resolved exclusion set as a list of section names, and the global rename
toggle made explicit.  Returns `(all_changes, new_lines)`. -/
def process_ini_preview (lines : List String) (excl : List String) (rename : Bool) :
    List Change × List String :=
  let st := flushIfPending rename (runLines excl rename initState lines)
  (st.allChanges, st.newLines)

/-! ### Routing view of the tokenizer

`tokenizeChunks` replays the tokenizer's control flow, recording where each
input line is routed — emitted verbatim, or into which flushed block —
without running the transformer.  It is the instrument for the
exactly-once-routing claim. -/

inductive Chunk where
  | verbatim (line : String)
  | block (lines : List String) (sect : Option String) (excluded : Bool)
deriving DecidableEq, Repr

/-- The input lines a chunk consumed. -/
def chunkLines : Chunk → List String
  | .verbatim l => [l]
  | .block b _ _ => b

/-- The output lines a chunk contributes. -/
def chunkOut (rename : Bool) : Chunk → List String
  | .verbatim l => [l]
  | .block b s e => (process_block_full b s e rename).1

/-- The change records a chunk contributes. -/
def chunkChanges (rename : Bool) : Chunk → List Change
  | .verbatim _ => []
  | .block b s e => (process_block_full b s e rename).2

def chunksLines : List Chunk → List String
  | [] => []
  | c :: r => chunkLines c ++ chunksLines r

def chunksOut (rename : Bool) : List Chunk → List String
  | [] => []
  | c :: r => chunkOut rename c ++ chunksOut rename r

def chunksChanges (rename : Bool) : List Chunk → List Change
  | [] => []
  | c :: r => chunkChanges rename c ++ chunksChanges rename r

structure ChunkState where
  chunks : List Chunk
  blockLines : List String
  currentSection : Option String
  insideSection : Bool
  insideExcluded : Bool
  currentSwapvar : Option String
deriving Repr

def cInit : ChunkState := ⟨[], [], none, false, false, none⟩

def cFlushBlock (st : ChunkState) : ChunkState :=
  { st with chunks := st.chunks ++ [.block st.blockLines st.currentSection st.insideExcluded],
            blockLines := [] }

def cFlushIfPending (st : ChunkState) : ChunkState :=
  if st.blockLines.isEmpty then st else cFlushBlock st

/-- The tokenizer's step with the transformer abstracted away: identical
branch structure and state updates to `stepLine`. -/
def cStepLine (excl : List String) (st : ChunkState) (line : String) : ChunkState :=
  let stripped := pyStrip line
  if isHeaderLine line then
    let st1 := cFlushIfPending st
    { st1 with currentSection := some stripped, insideSection := true,
               insideExcluded := autoExclude stripped || excl.contains stripped,
               currentSwapvar := none,
               chunks := st1.chunks ++ [.verbatim line],
               blockLines := [] }
  else
    match matchSwapL line.data with
    | some d =>
      let st1 := cFlushIfPending st
      { st1 with currentSwapvar := some d, blockLines := [line] }
    | none =>
      if st.insideSection && matchEndifL line.data then
        let st1 := cFlushBlock { st with blockLines := st.blockLines ++ [line] }
        { st1 with currentSwapvar := none }
      else if st.insideSection then { st with blockLines := st.blockLines ++ [line] }
      else { st with chunks := st.chunks ++ [.verbatim line] }

def runChunks (excl : List String) (st : ChunkState) (lines : List String) : ChunkState :=
  lines.foldl (cStepLine excl) st

def tokenizeChunks (lines : List String) (excl : List String) : List Chunk :=
  (cFlushIfPending (runChunks excl cInit lines)).chunks

/-! ### Derived notions used to state and prove the properties -/

/-- A slot-assignment line: `re.match(r'ps-t\d+', line.lstrip())` succeeds. -/
def slotLine (l : String) : Bool := psAnyL (pyLstrip l).data

/-- The effect of the rename pass on a single line. -/
def renamedLine (rename : Bool) (l : String) : String :=
  if rename && renameCond l then renameApply l else l

/-- The change record the rename pass emits for a qualifying line. -/
def renRecord (sect : Option String) (l : String) : Change :=
  .renamed sect (pyLstrip l) (renameApply (pyLstrip l))

/-- The rename-pass change list of a block. -/
def renChanges (rename : Bool) (sect : Option String) (block : List String) : List Change :=
  (block.filter fun l => rename && renameCond l).map (renRecord sect)

/-- Standalone description of the `last_ps_indices` construction: fold the
block from position `n` into table `t`. -/
def buildTable : List String → Nat → List (Nat × Nat) → List (Nat × Nat)
  | [], _, t => t
  | l :: rest, n, t =>
    buildTable rest (n + 1) (if slotLine l then tableSet t (indentOf l) n else t)

/-- Position of the last slot-assignment line of a block at depth `d`, read
off the block's own `last_ps_indices` table. -/
def lastSlotAt? (block : List String) (d : Nat) : Option Nat :=
  (buildTable block 0 []).lookup d

/-- Position of the last slot-assignment line of a block, any depth. -/
def lastSlotIdx? : List String → Option Nat
  | [] => none
  | l :: rest =>
    match lastSlotIdx? rest with
    | some p => some (p + 1)
    | none => if slotLine l then some 0 else none

def isRenamedRec : Change → Bool
  | .renamed _ _ _ => true
  | _ => false

def isRemovedRec : Change → Bool
  | .removedRun _ _ => true
  | _ => false

def isAddedRec : Change → Bool
  | .addedRun _ _ => true
  | _ => false

/-- The directive-correctness property of the specification, for a transformed
block `output` of source block `input`: at every depth that (still) has a slot
assignment, the line right after the last slot assignment is the canonical
directive, and no directive line sits anywhere else in the block. -/
def directiveOk (input output : List String) : Prop :=
  ∀ d p, lastSlotAt? output d = some p →
    output[p + 1]? = some (correctRun input) ∧
    ∀ i l, output[i]? = some l → matchRunL l.data = true → i = p + 1

/-- Correspondence between the tokenizer's real state and the routing view's
state: same control fields, and the real output/changes are exactly what the
recorded chunks produce. -/
def TokRel (rename : Bool) (st : TokState) (cst : ChunkState) : Prop :=
  st.blockLines = cst.blockLines ∧ st.currentSection = cst.currentSection ∧
  st.insideSection = cst.insideSection ∧ st.insideExcluded = cst.insideExcluded ∧
  st.newLines = chunksOut rename cst.chunks ∧
  st.allChanges = chunksChanges rename cst.chunks

/-! ### Structure of the rename pass -/

lemma pass1Step_eq (rename : Bool) (sect : Option String) (st : Pass1State) (line : String) :
    pass1Step rename sect st line =
      ⟨st.newBlock ++ [renamedLine rename line],
       st.changes ++ (if rename && renameCond line then [renRecord sect line] else []),
       if slotLine line then tableSet st.table (indentOf line) st.newBlock.length
       else st.table⟩ := by
  unfold pass1Step renamedLine renRecord slotLine
  by_cases h : rename && renameCond line <;>
    by_cases h2 : psAnyL (pyLstrip line).data <;>
      simp [h, h2]

lemma foldl_pass1 (rename : Bool) (sect : Option String) :
    ∀ (block : List String) (st : Pass1State),
      block.foldl (pass1Step rename sect) st =
        ⟨st.newBlock ++ block.map (renamedLine rename),
         st.changes ++ renChanges rename sect block,
         buildTable block st.newBlock.length st.table⟩
  | [], st => by simp [renChanges, buildTable]
  | l :: rest, st => by
    rw [List.foldl_cons, pass1Step_eq, foldl_pass1 rename sect rest]
    by_cases hs : slotLine l <;>
      by_cases hr : rename && renameCond l <;>
        simp [buildTable, renChanges, List.filter_cons, hs, hr, List.append_assoc]

lemma pass1_eq (rename : Bool) (sect : Option String) (block : List String) :
    pass1 rename sect block =
      ⟨block.map (renamedLine rename), renChanges rename sect block,
       buildTable block 0 []⟩ := by
  unfold pass1
  rw [foldl_pass1]
  rfl

/-! ### Character-level facts about the classifiers -/

lemma psT0data : "ps-t0".data = ['p', 's', '-', 't', '0'] := rfl

lemma psT1data : "ps-t1".data = ['p', 's', '-', 't', '1'] := rfl

lemma dropSpaces_cons_of_space {c : Char} (h : isPySpace c = true) (r : List Char) :
    dropSpaces (c :: r) = dropSpaces r := by
  simp [dropSpaces, List.dropWhile, h]

lemma dropSpaces_cons_of_not {c : Char} (h : isPySpace c = false) (r : List Char) :
    dropSpaces (c :: r) = c :: r := by
  simp [dropSpaces, List.dropWhile, h]

lemma dropSpaces_spaces_append {w : List Char} (hw : ∀ c ∈ w, isPySpace c = true)
    {x : Char} (hx : isPySpace x = false) (r : List Char) :
    dropSpaces (w ++ x :: r) = x :: r := by
  induction w with
  | nil => simpa using dropSpaces_cons_of_not hx r
  | cons a w ih =>
    rw [List.cons_append, dropSpaces_cons_of_space (hw a (by simp))]
    exact ih fun c hc => hw c (by simp [hc])

lemma space_cases {c : Char} (h : isPySpace c = true) :
    c = ' ' ∨ c = '\t' ∨ c = '\n' ∨ c = '\r' ∨ c = '\x0b' ∨ c = '\x0c' := by
  have := h
  simp only [isPySpace, Bool.or_eq_true, decide_eq_true_eq] at this
  tauto

lemma not_space_p : isPySpace 'p' = false := rfl

lemma psT0eqL_shape {s : List Char} (h : psT0eqL s = true) :
    ∃ r, s = 'p' :: 's' :: '-' :: 't' :: '0' :: r := by
  unfold psT0eqL at h
  split at h
  · exact ⟨_, rfl⟩
  · exact absurd h (by simp)

lemma renameCond_shape {l : String} (h : renameCond l = true) :
    ∃ w r, (∀ c ∈ w, isPySpace c = true) ∧
      l.data = w ++ 'p' :: 's' :: '-' :: 't' :: '0' :: r ∧
      dropSpaces l.data = 'p' :: 's' :: '-' :: 't' :: '0' :: r := by
  have h1 : psT0eqL (dropSpaces l.data) = true := by
    unfold renameCond pyLstrip at h
    simp at h
    exact h.1.1
  obtain ⟨r, hr⟩ := psT0eqL_shape h1
  refine ⟨l.data.takeWhile isPySpace, r, ?_, ?_, hr⟩
  · exact fun c hc => List.mem_takeWhile_imp hc
  · conv_lhs => rw [← @List.takeWhile_append_dropWhile _ isPySpace l.data]
    rw [show l.data.dropWhile isPySpace = dropSpaces l.data from rfl, hr]

lemma isPrefixOf_ps0_space {c : Char} (h : isPySpace c = true) (rest : List Char) :
    "ps-t0".data.isPrefixOf (c :: rest) = false := by
  rcases space_cases h with h | h | h | h | h | h <;> subst h <;> rfl

lemma replaceFirst_space_ps0 {w : List Char} (hw : ∀ c ∈ w, isPySpace c = true) (r : List Char) :
    replaceFirst "ps-t0".data "ps-t1".data (w ++ 'p' :: 's' :: '-' :: 't' :: '0' :: r)
      = w ++ 'p' :: 's' :: '-' :: 't' :: '1' :: r := by
  induction w with
  | nil =>
    rw [List.nil_append, replaceFirst, if_pos (by simp [psT0data, List.isPrefixOf])]
    rfl
  | cons a w ih =>
    rw [List.cons_append, replaceFirst, if_neg (by simp [isPrefixOf_ps0_space (hw a (by simp))])]
    rw [List.cons_append, ih fun c hc => hw c (by simp [hc])]

lemma renameApply_of_cond {l : String} (h : renameCond l = true) :
    ∃ w r, (∀ c ∈ w, isPySpace c = true) ∧
      l.data = w ++ 'p' :: 's' :: '-' :: 't' :: '0' :: r ∧
      (renameApply l).data = w ++ 'p' :: 's' :: '-' :: 't' :: '1' :: r := by
  obtain ⟨w, r, hw, hl, _⟩ := renameCond_shape h
  refine ⟨w, r, hw, hl, ?_⟩
  show (replaceFirst "ps-t0".data "ps-t1".data l.data) = _
  rw [hl, replaceFirst_space_ps0 hw]

lemma not_space_of_psT0 : isPySpace 'p' = false := rfl

lemma matchRunL_eq_false_of_head {s : List Char} {c : Char} {t : List Char}
    (h : dropSpaces s = c :: t) (hc : c.toLower ≠ 'r') : matchRunL s = false := by
  unfold matchRunL
  rw [h]
  have hnone : stripPrefixCI "run".data (c :: t) = none := by
    show stripPrefixCI ('r' :: 'u' :: 'n' :: []) (c :: t) = none
    rw [stripPrefixCI, if_neg]
    intro hh
    exact hc (by simpa using hh.symm)
  rw [hnone]

lemma dropSpaces_of_cond {l : String} (h : renameCond l = true) :
    ∃ r, dropSpaces l.data = 'p' :: 's' :: '-' :: 't' :: '0' :: r ∧
      dropSpaces (renameApply l).data = 'p' :: 's' :: '-' :: 't' :: '1' :: r := by
  obtain ⟨w, r, hw, hl, ha⟩ := renameApply_of_cond h
  obtain ⟨_, _, _, hl2, hd⟩ := renameCond_shape h
  refine ⟨r, ?_, ?_⟩
  · rw [hl, dropSpaces_spaces_append hw (show isPySpace 'p' = false from rfl)]
  · rw [ha, dropSpaces_spaces_append hw (show isPySpace 'p' = false from rfl)]

lemma slotLine_renameApply {l : String} (h : renameCond l = true) :
    slotLine (renameApply l) = true ∧ slotLine l = true := by
  obtain ⟨r, h0, h1⟩ := dropSpaces_of_cond h
  constructor
  · show psAnyL (dropSpaces (renameApply l).data) = true
    rw [h1]; rfl
  · show psAnyL (dropSpaces l.data) = true
    rw [h0]; rfl

lemma slotLine_renamedLine (rename : Bool) (l : String) :
    slotLine (renamedLine rename l) = slotLine l := by
  unfold renamedLine
  by_cases h : rename && renameCond l
  · rw [if_pos h]
    obtain ⟨h1, h2⟩ := slotLine_renameApply (by exact (Bool.and_eq_true _ _ ▸ h).2)
    rw [h1, h2]
  · rw [if_neg h]

lemma indentOf_renameApply {l : String} (h : renameCond l = true) :
    indentOf (renameApply l) = indentOf l := by
  obtain ⟨w, r, hw, hl, ha⟩ := renameApply_of_cond h
  obtain ⟨r2, h0, h1⟩ := dropSpaces_of_cond h
  unfold indentOf
  rw [hl, ha, dropSpaces_spaces_append hw (show isPySpace 'p' = false from rfl),
      dropSpaces_spaces_append hw (show isPySpace 'p' = false from rfl)]
  simp

lemma indentOf_renamedLine (rename : Bool) (l : String) :
    indentOf (renamedLine rename l) = indentOf l := by
  unfold renamedLine
  by_cases h : rename && renameCond l
  · rw [if_pos h, indentOf_renameApply (Bool.and_eq_true _ _ ▸ h).2]
  · rw [if_neg h]

lemma matchRunL_renameApply {l : String} (h : renameCond l = true) :
    matchRunL (renameApply l).data = false ∧ matchRunL l.data = false := by
  obtain ⟨r, h0, h1⟩ := dropSpaces_of_cond h
  exact ⟨matchRunL_eq_false_of_head h1 (by decide),
         matchRunL_eq_false_of_head h0 (by decide)⟩

lemma matchRunL_renamedLine (rename : Bool) (l : String) :
    matchRunL (renamedLine rename l).data = matchRunL l.data := by
  unfold renamedLine
  by_cases h : rename && renameCond l
  · rw [if_pos h]
    obtain ⟨h1, h2⟩ := matchRunL_renameApply (Bool.and_eq_true _ _ ▸ h).2
    rw [h1, h2]
  · rw [if_neg h]

lemma renameCond_renameApply {l : String} (h : renameCond l = true) :
    renameCond (renameApply l) = false := by
  obtain ⟨r, _, h1⟩ := dropSpaces_of_cond h
  unfold renameCond
  have : psT0eqL (pyLstrip (renameApply l)).data = false := by
    show psT0eqL (dropSpaces (renameApply l).data) = false
    rw [h1]; rfl
  simp [this]

lemma renamedLine_idem (rename : Bool) (l : String) :
    renamedLine rename (renamedLine rename l) = renamedLine rename l := by
  unfold renamedLine
  by_cases h : rename && renameCond l
  · rw [if_pos h, if_neg]
    simp only [Bool.and_eq_true] at h ⊢
    rw [renameCond_renameApply h.2]
    simp
  · rw [if_neg h, if_neg h]

lemma buildTable_congr {f : String → String}
    (hslot : ∀ l, slotLine (f l) = slotLine l)
    (hind : ∀ l, indentOf (f l) = indentOf l) :
    ∀ (b : List String) (n : Nat) (t : List (Nat × Nat)),
      buildTable (b.map f) n t = buildTable b n t
  | [], _, _ => rfl
  | l :: rest, n, t => by
    rw [List.map_cons, buildTable, buildTable, hslot, hind]
    exact buildTable_congr hslot hind rest (n + 1) _

lemma normal_orfixRun : containsSub "NormalMap" orfixRun = false := by decide

lemma normal_nnfixRun : containsSub "NormalMap" nnfixRun = false := by decide

lemma matchRunL_orfixRun : matchRunL orfixRun.data = true := by decide

lemma matchRunL_nnfixRun : matchRunL nnfixRun.data = true := by decide

lemma matchRunL_correctRun (block : List String) :
    matchRunL (correctRun block).data = true := by
  unfold correctRun
  by_cases h : hasNormal block <;> simp [h, matchRunL_orfixRun, matchRunL_nnfixRun]

lemma indentOf_correctRun (block : List String) : indentOf (correctRun block) = 0 := by
  unfold correctRun
  by_cases h : hasNormal block <;> simp [h] <;> decide

lemma slotLine_correctRun (block : List String) : slotLine (correctRun block) = false := by
  unfold correctRun
  by_cases h : hasNormal block <;> simp [h] <;> decide

lemma renameCond_correctRun (block : List String) :
    renameCond (correctRun block) = false := by
  unfold correctRun
  by_cases h : hasNormal block <;> simp [h] <;> decide

/-! ### Table and last-slot lemmas -/

lemma tableSet_tableSet (k v v' : Nat) :
    ∀ t : List (Nat × Nat), tableSet (tableSet t k v) k v' = tableSet t k v'
  | [] => by simp [tableSet]
  | (k1, v1) :: r => by
    by_cases h : k1 = k
    · simp [tableSet, h]
    · simp [tableSet, h, tableSet_tableSet k v v' r]

lemma lastSlotIdx?_eq_none :
    ∀ (L : List String), lastSlotIdx? L = none → ∀ l ∈ L, slotLine l = false
  | [], _, l, hl => by simp at hl
  | a :: L, h, l, hl => by
    rw [lastSlotIdx?] at h
    cases hr : lastSlotIdx? L with
    | some q => rw [hr] at h; simp at h
    | none =>
      rw [hr] at h
      by_cases hs : slotLine a
      · rw [if_pos hs] at h; simp at h
      · rcases List.mem_cons.mp hl with rfl | hl2
        · simpa using hs
        · exact lastSlotIdx?_eq_none L hr l hl2

lemma lastSlotIdx?_spec :
    ∀ (L : List String) (p : Nat), lastSlotIdx? L = some p →
      p < L.length ∧ (∃ l, L[p]? = some l ∧ slotLine l = true) ∧
        ∀ j l, p < j → L[j]? = some l → slotLine l = false
  | [], p, h => by simp [lastSlotIdx?] at h
  | a :: L, p, h => by
    rw [lastSlotIdx?] at h
    cases hr : lastSlotIdx? L with
    | some q =>
      rw [hr] at h
      obtain rfl : q + 1 = p := by simpa using h
      obtain ⟨hlen, ⟨l, hl, hsl⟩, hafter⟩ := lastSlotIdx?_spec L q hr
      refine ⟨by simpa using hlen, ⟨l, by simpa using hl, hsl⟩, ?_⟩
      intro j l' hj hjl
      match j, hj with
      | j + 1, hj =>
        exact hafter j l' (by omega) (by simpa using hjl)
    | none =>
      rw [hr] at h
      by_cases hs : slotLine a
      · rw [if_pos hs] at h
        obtain rfl : 0 = p := by simpa using h
        refine ⟨by simp, ⟨a, by simp, hs⟩, ?_⟩
        intro j l' hj hjl
        match j, hj with
        | j + 1, _ =>
          exact lastSlotIdx?_eq_none L hr l'
            (List.getElem?_mem (by simpa using hjl))
      · rw [if_neg hs] at h
        exact absurd h (by simp)

lemma lastSlotIdx?_of :
    ∀ (L : List String) (p : Nat) (l : String), L[p]? = some l → slotLine l = true →
      (∀ j l', p < j → L[j]? = some l' → slotLine l' = false) →
      lastSlotIdx? L = some p
  | [], p, l, hp, _, _ => by simp at hp
  | a :: L, p, l, hp, hs, hafter => by
    rw [lastSlotIdx?]
    match p, hp, hafter with
    | 0, hp, hafter =>
      obtain rfl : a = l := by simpa using hp
      cases hr : lastSlotIdx? L with
      | some q =>
        obtain ⟨_, ⟨l', hl', hsl'⟩, _⟩ := lastSlotIdx?_spec L q hr
        have := hafter (q + 1) l' (by omega) (by simpa using hl')
        rw [hsl'] at this
        exact absurd this (by simp)
      | none => rw [if_pos hs]
    | p + 1, hp, hafter =>
      have : lastSlotIdx? L = some p :=
        lastSlotIdx?_of L p l (by simpa using hp) hs
          (fun j l' hj hjl => hafter (j + 1) l' (by omega) (by simpa using hjl))
      rw [this]

lemma buildTable_noSlot :
    ∀ (L : List String) (n : Nat) (t : List (Nat × Nat)),
      (∀ l ∈ L, slotLine l = false) → buildTable L n t = t
  | [], _, _, _ => rfl
  | a :: L, n, t, h => by
    rw [buildTable, if_neg (by simp [h a (by simp)])]
    exact buildTable_noSlot L (n + 1) t (fun l hl => h l (by simp [hl]))

lemma buildTable_depth0_none {L : List String} (hr : lastSlotIdx? L = none)
    (n : Nat) (t : List (Nat × Nat)) : buildTable L n t = t :=
  buildTable_noSlot L n t (lastSlotIdx?_eq_none L hr)

lemma buildTable_depth0_some :
    ∀ (L : List String) (p : Nat), lastSlotIdx? L = some p →
      (∀ l ∈ L, slotLine l = true → indentOf l = 0) →
      ∀ (n : Nat) (t : List (Nat × Nat)), buildTable L n t = tableSet t 0 (n + p)
  | [], p, hr, _, _, _ => by simp [lastSlotIdx?] at hr
  | a :: L, p, hr, h, n, t => by
    rw [buildTable]
    rw [lastSlotIdx?] at hr
    cases hq : lastSlotIdx? L with
    | some q =>
      rw [hq] at hr
      obtain rfl : q + 1 = p := by simpa using hr
      by_cases hs : slotLine a
      · rw [if_pos hs, h a (by simp) hs,
            buildTable_depth0_some L q hq (fun l hl => h l (by simp [hl])) (n + 1) _,
            tableSet_tableSet]
        congr 1
        omega
      · rw [if_neg hs, buildTable_depth0_some L q hq (fun l hl => h l (by simp [hl])) (n + 1) t]
        congr 1
        omega
    | none =>
      rw [hq] at hr
      by_cases hs : slotLine a
      · rw [if_pos hs] at hr
        obtain rfl : 0 = p := by simpa using hr
        rw [if_pos hs, h a (by simp) hs, buildTable_depth0_none hq (n + 1) _]
        rfl
      · rw [if_neg hs] at hr
        exact absurd hr (by simp)

lemma lookup_pair (d p : Nat) :
    List.lookup d [(0, p)] = if d = 0 then some p else none := by
  by_cases h : d = 0
  · subst h; rfl
  · rw [if_neg h]
    have : (d == 0) = false := by simpa using h
    simp [List.lookup, this]

lemma lastSlotAt?_depth0_none {L : List String} (hr : lastSlotIdx? L = none) (d : Nat) :
    lastSlotAt? L d = none := by
  unfold lastSlotAt?
  rw [buildTable_depth0_none hr 0 []]
  rfl

lemma lastSlotAt?_depth0_some {L : List String} {p : Nat} (hr : lastSlotIdx? L = some p)
    (h : ∀ l ∈ L, slotLine l = true → indentOf l = 0) (d : Nat) :
    lastSlotAt? L d = if d = 0 then some p else none := by
  unfold lastSlotAt?
  rw [buildTable_depth0_some L p hr h 0 []]
  show List.lookup d [(0, 0 + p)] = _
  rw [Nat.zero_add]
  exact lookup_pair d p

/-! ### Removal-pass lemmas -/

lemma removalPass_noRun (sect : Option String) (correct : String) (table : List (Nat × Nat)) :
    ∀ (L : List String) (i : Nat), (∀ l ∈ L, matchRunL l.data = false) →
      removalPass sect correct table i L = (L, [])
  | [], _, _ => rfl
  | line :: rest, i, h => by
    rw [removalPass, removalPass_noRun sect correct table rest (i + 1)
          (fun l hl => h l (by simp [hl]))]
    rw [if_neg (by simp [h line (by simp)])]

lemma removalPass_keepAll (sect : Option String) (correct : String) (table : List (Nat × Nat)) :
    ∀ (L : List String) (i : Nat),
      (∀ (j : Nat) (l : String), L[j]? = some l → matchRunL l.data = true →
        (∃ li, table.lookup (indentOf l) = some li ∧ i + j = li + 1) ∧ l = correct) →
      removalPass sect correct table i L = (L, [])
  | [], _, _ => rfl
  | line :: rest, i, h => by
    rw [removalPass, removalPass_keepAll sect correct table rest (i + 1) (fun j l hj hr => by
      obtain ⟨⟨li, hli, hsum⟩, heq⟩ := h (j + 1) l (by simpa using hj) hr
      exact ⟨⟨li, hli, by omega⟩, heq⟩)]
    by_cases hr : matchRunL line.data
    · obtain ⟨⟨li, hli, hsum⟩, heq⟩ := h 0 line (by simp) hr
      have hc : ((match table.lookup (indentOf line) with
          | some li => decide (i = li + 1)
          | none => false) && (line == correct)) = true := by
        rw [hli]
        simp [heq]
        omega
      rw [if_pos hr, if_pos hc]
    · rw [if_neg hr]

lemma removalPass_out_run (sect : Option String) (correct : String) (table : List (Nat × Nat)) :
    ∀ (L : List String) (i : Nat) (l : String),
      l ∈ (removalPass sect correct table i L).1 → matchRunL l.data = true → l = correct
  | [], i, l, hl, _ => by simp [removalPass] at hl
  | line :: rest, i, l, hl, hr => by
    rw [removalPass] at hl
    by_cases hrun : matchRunL line.data
    · rw [if_pos hrun] at hl
      by_cases hc : ((match table.lookup (indentOf line) with
          | some li => decide (i = li + 1)
          | none => false) && (line == correct)) = true
      · rw [if_pos hc] at hl
        rcases List.mem_cons.mp hl with rfl | hl2
        · exact eq_of_beq (Bool.and_eq_true _ _ ▸ hc).2
        · exact removalPass_out_run sect correct table rest (i + 1) l hl2 hr
      · rw [if_neg hc] at hl
        exact removalPass_out_run sect correct table rest (i + 1) l hl hr
    · rw [if_neg hrun] at hl
      rcases List.mem_cons.mp hl with rfl | hl2
      · exact absurd hr hrun
      · exact removalPass_out_run sect correct table rest (i + 1) l hl2 hr

lemma removalPass_out_sub (sect : Option String) (correct : String) (table : List (Nat × Nat)) :
    ∀ (L : List String) (i : Nat) (l : String),
      l ∈ (removalPass sect correct table i L).1 → l ∈ L
  | [], i, l, hl => by simp [removalPass] at hl
  | line :: rest, i, l, hl => by
    rw [removalPass] at hl
    by_cases hrun : matchRunL line.data
    · rw [if_pos hrun] at hl
      by_cases hc : ((match table.lookup (indentOf line) with
          | some li => decide (i = li + 1)
          | none => false) && (line == correct)) = true
      · rw [if_pos hc] at hl
        rcases List.mem_cons.mp hl with rfl | hl2
        · simp
        · simp [removalPass_out_sub sect correct table rest (i + 1) l hl2]
      · rw [if_neg hc] at hl
        simp [removalPass_out_sub sect correct table rest (i + 1) l hl]
    · rw [if_neg hrun] at hl
      rcases List.mem_cons.mp hl with rfl | hl2
      · simp
      · simp [removalPass_out_sub sect correct table rest (i + 1) l hl2]

lemma removalPass_count (sect : Option String) (correct : String) (table : List (Nat × Nat)) :
    ∀ (L : List String) (i : Nat),
      (L.filter fun l => matchRunL l.data).length
        = (removalPass sect correct table i L).2.length
          + ((removalPass sect correct table i L).1.filter fun l => matchRunL l.data).length
  | [], _ => rfl
  | line :: rest, i => by
    rw [removalPass]
    by_cases hrun : matchRunL line.data
    · rw [if_pos hrun]
      by_cases hc : ((match table.lookup (indentOf line) with
          | some li => decide (i = li + 1)
          | none => false) && (line == correct)) = true
      · rw [if_pos hc]
        simp only [List.filter_cons, hrun, if_pos]
        have := removalPass_count sect correct table rest (i + 1)
        simp only [List.length_cons]
        omega
      · rw [if_neg hc]
        simp only [List.filter_cons, hrun, if_pos]
        have := removalPass_count sect correct table rest (i + 1)
        simp only [List.length_cons]
        omega
    · rw [if_neg hrun]
      simp only [List.filter_cons, hrun]
      have := removalPass_count sect correct table rest (i + 1)
      simp only [Bool.false_eq_true, if_false, List.length_cons]
      omega

lemma removalPass_removed_mem (sect : Option String) (correct : String)
    (table : List (Nat × Nat)) :
    ∀ (L : List String) (i : Nat) (l : String), l ∈ L → matchRunL l.data = true →
      l ≠ correct → Change.removedRun sect (pyStrip l) ∈ (removalPass sect correct table i L).2
  | [], i, l, hl, _, _ => by simp at hl
  | line :: rest, i, l, hl, hr, hne => by
    rw [removalPass]
    rcases List.mem_cons.mp hl with rfl | hl2
    · rw [if_pos hr, if_neg]
      · simp
      · intro hc
        exact hne (eq_of_beq (Bool.and_eq_true _ _ ▸ hc).2)
    · have ih := removalPass_removed_mem sect correct table rest (i + 1) l hl2 hr hne
      by_cases hrun : matchRunL line.data
      · rw [if_pos hrun]
        by_cases hc : ((match table.lookup (indentOf line) with
            | some li => decide (i = li + 1)
            | none => false) && (line == correct)) = true
        · rw [if_pos hc]; exact ih
        · rw [if_neg hc]; simp [ih]
      · rw [if_neg hrun]; exact ih

lemma removalPass_changes_tag (sect : Option String) (correct : String)
    (table : List (Nat × Nat)) :
    ∀ (L : List String) (i : Nat) (ch : Change),
      ch ∈ (removalPass sect correct table i L).2 → isRemovedRec ch = true
  | [], i, ch, hch => by simp [removalPass] at hch
  | line :: rest, i, ch, hch => by
    rw [removalPass] at hch
    by_cases hrun : matchRunL line.data
    · rw [if_pos hrun] at hch
      by_cases hc : ((match table.lookup (indentOf line) with
          | some li => decide (i = li + 1)
          | none => false) && (line == correct)) = true
      · rw [if_pos hc] at hch
        exact removalPass_changes_tag sect correct table rest (i + 1) ch hch
      · rw [if_neg hc] at hch
        rcases List.mem_cons.mp hch with rfl | hch2
        · rfl
        · exact removalPass_changes_tag sect correct table rest (i + 1) ch hch2
    · rw [if_neg hrun] at hch
      exact removalPass_changes_tag sect correct table rest (i + 1) ch hch

/-! ### Insertion-pass lemmas -/

lemma pyInsert_mem {l : List String} {i : Nat} {x y : String} (h : y ∈ pyInsert i x l) :
    y ∈ l ∨ y = x := by
  unfold pyInsert at h
  rcases List.mem_append.mp h with h | h
  · exact Or.inl (List.mem_of_mem_take h)
  · rcases List.mem_cons.mp h with rfl | h
    · exact Or.inr rfl
    · exact Or.inl (List.mem_of_mem_drop h)

lemma pyInsert_getElem?_self {l : List String} {i : Nat} (hi : i ≤ l.length) (x : String) :
    (pyInsert i x l)[i]? = some x := by
  unfold pyInsert
  have hlen : (l.take i).length = i := by rw [List.length_take]; omega
  rw [List.getElem?_append_right (by rw [hlen]), hlen, Nat.sub_self]
  rw [List.getElem?_cons_zero]

lemma pyInsert_getElem?_lt {l : List String} {i j : Nat} (hi : i ≤ l.length) (hj : j < i)
    (x : String) : (pyInsert i x l)[j]? = l[j]? := by
  unfold pyInsert
  have hlen : (l.take i).length = i := by rw [List.length_take]; omega
  rw [List.getElem?_append, if_pos (show j < (l.take i).length by rw [hlen]; exact hj)]
  rw [List.getElem?_take, if_pos hj]

lemma pyInsert_getElem?_gt {l : List String} {i j : Nat} (hi : i ≤ l.length) (hj : i < j)
    (x : String) : (pyInsert i x l)[j]? = l[j - 1]? := by
  unfold pyInsert
  have hlen : (l.take i).length = i := by rw [List.length_take]; omega
  rw [List.getElem?_append_right (by rw [hlen]; omega), hlen]
  have h1 : j - i = (j - i - 1) + 1 := by omega
  rw [h1, List.getElem?_cons_succ, List.getElem?_drop]
  congr 1
  omega

lemma pyInsert_length {l : List String} {i : Nat} (hi : i ≤ l.length) (x : String) :
    (pyInsert i x l).length = l.length + 1 := by
  unfold pyInsert
  rw [List.length_append, List.length_cons, List.length_take, List.length_drop]
  omega

lemma filter_pyInsert (p : String → Bool) {l : List String} {i : Nat} (x : String) :
    ((pyInsert i x l).filter p).length
      = (l.filter p).length + (if p x then 1 else 0) := by
  unfold pyInsert
  rw [List.filter_append]
  conv_rhs => rw [← List.take_append_drop i l, List.filter_append]
  rw [List.length_append, List.length_append, List.filter_cons]
  by_cases hp : p x
  · rw [if_pos hp, if_pos hp]
    simp only [List.length_cons]
    omega
  · rw [if_neg hp, if_neg hp]
    omega

lemma insertStep_count (sect : Option String) (correct : String)
    (hrc : matchRunL correct.data = true)
    (acc : List String × List (Nat × Nat) × List Change) (item : Nat × Nat) :
    ((insertStep sect correct acc item).1.filter fun l => matchRunL l.data).length
        + acc.2.2.length
      = (acc.1.filter fun l => matchRunL l.data).length
        + (insertStep sect correct acc item).2.2.length := by
  by_cases hc : (acc.1[item.2 + 1]? == some correct) = true
  · simp only [insertStep, if_pos hc]
  · simp only [insertStep, if_neg hc]
    rw [filter_pyInsert _ correct, if_pos hrc]
    rw [List.length_append]
    simp only [List.length_singleton]
    omega

lemma insertFold_count (sect : Option String) (correct : String)
    (hrc : matchRunL correct.data = true) :
    ∀ (items : List (Nat × Nat)) (acc : List String × List (Nat × Nat) × List Change),
      ((items.foldl (insertStep sect correct) acc).1.filter fun l => matchRunL l.data).length
          + acc.2.2.length
        = (acc.1.filter fun l => matchRunL l.data).length
          + (items.foldl (insertStep sect correct) acc).2.2.length
  | [], acc => rfl
  | item :: items, acc => by
    rw [List.foldl_cons]
    have h1 := insertStep_count sect correct hrc acc item
    have h2 := insertFold_count sect correct hrc items (insertStep sect correct acc item)
    omega

lemma insertFold_out_mem (sect : Option String) (correct : String) :
    ∀ (items : List (Nat × Nat)) (acc : List String × List (Nat × Nat) × List Change)
      (l : String),
      l ∈ (items.foldl (insertStep sect correct) acc).1 → l ∈ acc.1 ∨ l = correct
  | [], _, _, hl => Or.inl hl
  | item :: items, acc, l, hl => by
    rw [List.foldl_cons] at hl
    rcases insertFold_out_mem sect correct items _ l hl with h | h
    · by_cases hc : (acc.1[item.2 + 1]? == some correct) = true
      · simp only [insertStep, if_pos hc] at h
        exact Or.inl h
      · simp only [insertStep, if_neg hc] at h
        exact pyInsert_mem h
    · exact Or.inr h

lemma insertFold_changes_tag (sect : Option String) (correct : String) :
    ∀ (items : List (Nat × Nat)) (acc : List String × List (Nat × Nat) × List Change)
      (ch : Change),
      ch ∈ (items.foldl (insertStep sect correct) acc).2.2 →
        ch ∈ acc.2.2 ∨ isAddedRec ch = true
  | [], _, _, h => Or.inl h
  | item :: items, acc, ch, h => by
    rw [List.foldl_cons] at h
    rcases insertFold_changes_tag sect correct items _ ch h with h | h
    · by_cases hc : (acc.1[item.2 + 1]? == some correct) = true
      · simp only [insertStep, if_pos hc] at h
        exact Or.inl h
      · simp only [insertStep, if_neg hc] at h
        rcases List.mem_append.mp h with h | h
        · exact Or.inl h
        · right
          obtain rfl := List.mem_singleton.mp h
          rfl
    · exact Or.inr h

/-! ### Substring preservation under the one-character rename -/

lemma isPrefixOf_nil_char (pat : List Char) : pat.isPrefixOf ([] : List Char) = pat.isEmpty := by
  cases pat <;> rfl

lemma occursIn_iff (pat : List Char) :
    ∀ s, occursIn pat s = true ↔ ∃ i, pat.isPrefixOf (s.drop i) = true
  | [] => by
    rw [occursIn]
    constructor
    · intro h
      exact ⟨0, by rw [List.drop_nil, isPrefixOf_nil_char]; exact h⟩
    · rintro ⟨i, hi⟩
      rw [List.drop_nil, isPrefixOf_nil_char] at hi
      exact hi
  | c :: rest => by
    rw [occursIn, Bool.or_eq_true]
    constructor
    · rintro (h | h)
      · exact ⟨0, h⟩
      · obtain ⟨i, hi⟩ := (occursIn_iff pat rest).mp h
        exact ⟨i + 1, by simpa using hi⟩
    · rintro ⟨i, hi⟩
      match i, hi with
      | 0, hi => exact Or.inl hi
      | i + 1, hi => exact Or.inr ((occursIn_iff pat rest).mpr ⟨i, by simpa using hi⟩)

lemma prefix_drop_replace {n u r : List Char} {c c' : Char}
    (hc : c ∉ n) (i : Nat) (h : n <+: (u ++ c :: r).drop i) :
    ∃ j, n <+: (u ++ c' :: r).drop j := by
  by_cases hi : i ≤ u.length
  · rw [List.drop_append_eq_append_drop, Nat.sub_eq_zero_of_le hi, List.drop_zero] at h
    by_cases hn : n.length ≤ (u.drop i).length
    · refine ⟨i, ?_⟩
      rw [List.drop_append_eq_append_drop, Nat.sub_eq_zero_of_le hi, List.drop_zero]
      rw [List.prefix_iff_eq_take] at h ⊢
      rw [List.take_append_eq_append_take, Nat.sub_eq_zero_of_le hn, List.take_zero,
          List.append_nil] at h ⊢
      exact h
    · exfalso
      rw [List.prefix_iff_eq_take] at h
      have hcn : n[(u.drop i).length]? = some c := by
        rw [h, List.getElem?_take, if_pos (by omega), List.getElem?_append_right (le_refl _),
            Nat.sub_self, List.getElem?_cons_zero]
      exact hc (List.getElem?_mem hcn)
  · refine ⟨i, ?_⟩
    rw [List.drop_append_eq_append_drop, List.drop_eq_nil_of_le (by omega), List.nil_append] at h ⊢
    have he : i - u.length = (i - u.length - 1) + 1 := by omega
    rw [he, List.drop_succ_cons] at h ⊢
    exact h

lemma occursIn_replace {n u r : List Char} {c c' : Char} (hc : c ∉ n) (hc' : c' ∉ n) :
    occursIn n (u ++ c :: r) = occursIn n (u ++ c' :: r) := by
  have dir : ∀ (a b : Char), a ∉ n → b ∉ n →
      occursIn n (u ++ a :: r) = true → occursIn n (u ++ b :: r) = true := by
    intro a b ha hb h
    obtain ⟨i, hi⟩ := (occursIn_iff n _).mp h
    obtain ⟨j, hj⟩ := prefix_drop_replace ha i (List.isPrefixOf_iff_prefix.mp hi)
    exact (occursIn_iff n _).mpr ⟨j, List.isPrefixOf_iff_prefix.mpr hj⟩
  cases h1 : occursIn n (u ++ c :: r) with
  | true => exact (dir c c' hc hc' h1).symm
  | false =>
    cases h2 : occursIn n (u ++ c' :: r) with
    | true => rw [dir c' c hc' hc h2] at h1; exact h1.symm
    | false => rfl

lemma normal_renameApply {l : String} (h : renameCond l = true) :
    containsSub "NormalMap" (renameApply l) = containsSub "NormalMap" l := by
  obtain ⟨w, r, hw, hl, ha⟩ := renameApply_of_cond h
  unfold containsSub
  rw [hl, ha]
  have e0 : w ++ 'p' :: 's' :: '-' :: 't' :: '0' :: r
      = (w ++ ['p', 's', '-', 't']) ++ '0' :: r := by simp
  have e1 : w ++ 'p' :: 's' :: '-' :: 't' :: '1' :: r
      = (w ++ ['p', 's', '-', 't']) ++ '1' :: r := by simp
  rw [e0, e1]
  exact (occursIn_replace (by decide) (by decide)).symm

lemma normal_renamedLine (rename : Bool) (l : String) :
    containsSub "NormalMap" (renamedLine rename l) = containsSub "NormalMap" l := by
  unfold renamedLine
  by_cases h : rename && renameCond l
  · rw [if_pos h, normal_renameApply (Bool.and_eq_true _ _ ▸ h).2]
  · rw [if_neg h]

lemma hasNormal_renamed (rename : Bool) (B : List String) :
    hasNormal (B.map (renamedLine rename)) = hasNormal B := by
  unfold hasNormal
  rw [List.any_map]
  have : (fun l => containsSub "NormalMap" l) ∘ renamedLine rename
      = fun l => containsSub "NormalMap" l := by
    funext l
    exact normal_renamedLine rename l
  rw [this]

lemma correctRun_renamed (rename : Bool) (B : List String) :
    correctRun (B.map (renamedLine rename)) = correctRun B := by
  unfold correctRun
  rw [hasNormal_renamed]

lemma hasNormal_pyInsert (i : Nat) {x : String} (hx : containsSub "NormalMap" x = false)
    (L : List String) : hasNormal (pyInsert i x L) = hasNormal L := by
  unfold pyInsert hasNormal
  rw [List.any_append, List.any_cons, hx]
  conv_rhs => rw [← List.take_append_drop i L, List.any_append]
  simp

lemma normal_correctRun (B : List String) :
    containsSub "NormalMap" (correctRun B) = false := by
  unfold correctRun
  by_cases h : hasNormal B <;> simp [h] <;> decide

/-! ### Characterization of the transformer on clean blocks -/

lemma noRun_renamed {B : List String} (rename : Bool)
    (h : ∀ l ∈ B, matchRunL l.data = false) :
    ∀ l ∈ B.map (renamedLine rename), matchRunL l.data = false := by
  intro l hl
  obtain ⟨l0, hl0, rfl⟩ := List.mem_map.mp hl
  rw [matchRunL_renamedLine]
  exact h l0 hl0

lemma depth0_renamed {B : List String} (rename : Bool)
    (h : ∀ l ∈ B, slotLine l = true → indentOf l = 0) :
    ∀ l ∈ B.map (renamedLine rename), slotLine l = true → indentOf l = 0 := by
  intro l hl hs
  obtain ⟨l0, hl0, rfl⟩ := List.mem_map.mp hl
  rw [indentOf_renamedLine]
  exact h l0 hl0 (by rw [← slotLine_renamedLine rename l0]; exact hs)

lemma lastSlotIdx?_map_renamed (rename : Bool) :
    ∀ B : List String, lastSlotIdx? (B.map (renamedLine rename)) = lastSlotIdx? B
  | [] => rfl
  | l :: B => by
    rw [List.map_cons, lastSlotIdx?, lastSlotIdx?, lastSlotIdx?_map_renamed rename B,
        slotLine_renamedLine]

lemma process_clean_noslot {B : List String} (sect : Option String) (rename : Bool)
    (hne : B ≠ [])
    (hnorun : ∀ l ∈ B, matchRunL l.data = false)
    (hnoslot : lastSlotIdx? B = none) :
    process_block_full B sect false rename
      = (B.map (renamedLine rename), renChanges rename sect B) := by
  have hbne : (B.isEmpty || false) = false := by
    simp [List.isEmpty_iff, hne]
  simp only [process_block_full, hbne, Bool.false_eq_true, if_false, pass1_eq]
  rw [buildTable_depth0_none hnoslot 0 []]
  rw [removalPass_noRun _ _ _ _ 0 (noRun_renamed rename hnorun)]
  simp [sortPairs]

lemma process_clean_slot {B : List String} (sect : Option String) (rename : Bool)
    {p : Nat}
    (hnorun : ∀ l ∈ B, matchRunL l.data = false)
    (hdep : ∀ l ∈ B, slotLine l = true → indentOf l = 0)
    (hslot : lastSlotIdx? B = some p) :
    process_block_full B sect false rename
      = (pyInsert (p + 1) (correctRun B) (B.map (renamedLine rename)),
         renChanges rename sect B ++ [Change.addedRun sect (pyStrip (correctRun B))]) := by
  have hne : B ≠ [] := by
    intro h
    subst h
    simp [lastSlotIdx?] at hslot
  have hbne : (B.isEmpty || false) = false := by
    simp [List.isEmpty_iff, hne]
  simp only [process_block_full, hbne, Bool.false_eq_true, if_false, pass1_eq]
  rw [buildTable_depth0_some B p hslot hdep 0 [], Nat.zero_add]
  rw [removalPass_noRun _ _ _ _ 0 (noRun_renamed rename hnorun)]
  have hget : ((B.map (renamedLine rename))[p + 1]? == some (correctRun B)) = false := by
    cases hr : (B.map (renamedLine rename))[p + 1]? with
    | none => rfl
    | some l =>
      have hlm : l ∈ B.map (renamedLine rename) := List.getElem?_mem hr
      have hnr := noRun_renamed rename hnorun l hlm
      have hne2 : l ≠ correctRun B := by
        intro heq
        rw [heq, matchRunL_correctRun] at hnr
        exact absurd hnr (by simp)
      simp [hne2]
  rw [show tableSet [] 0 p = [(0, p)] from rfl, show sortPairs [(0, p)] = [(0, p)] from rfl,
      List.foldl_cons, List.foldl_nil]
  have hnex : ¬ ∃ a, B[p + 1]? = some a ∧ renamedLine rename a = correctRun B := by
    rintro ⟨a, ha, hra⟩
    have hfa : matchRunL (renamedLine rename a).data = false := by
      rw [matchRunL_renamedLine]
      exact hnorun a (List.getElem?_mem ha)
    rw [hra, matchRunL_correctRun] at hfa
    exact absurd hfa (by simp)
  simp [insertStep, hnex]

lemma pyInsert_facts {B : List String} (rename : Bool) {p : Nat}
    (hnorun : ∀ l ∈ B, matchRunL l.data = false)
    (hdep : ∀ l ∈ B, slotLine l = true → indentOf l = 0)
    (hslot : lastSlotIdx? B = some p) :
    let R := B.map (renamedLine rename)
    let O := pyInsert (p + 1) (correctRun B) R
    O[p + 1]? = some (correctRun B) ∧
    lastSlotIdx? O = some p ∧
    (∀ l ∈ O, slotLine l = true → indentOf l = 0) ∧
    (∀ i l, O[i]? = some l → matchRunL l.data = true → i = p + 1) := by
  intro R O
  obtain ⟨hplen, ⟨lp, hlp, hslp⟩, hafter⟩ := lastSlotIdx?_spec B p hslot
  have hRlen : R.length = B.length := List.length_map _ _
  have hple : p + 1 ≤ R.length := by omega
  have hOc : O[p + 1]? = some (correctRun B) := pyInsert_getElem?_self hple _
  have hRp : R[p]? = some (renamedLine rename lp) := by
    show (B.map (renamedLine rename))[p]? = _
    rw [List.getElem?_map, hlp]
    rfl
  have hRafter : ∀ j l, p < j → R[j]? = some l → slotLine l = false := by
    intro j l hj hjl
    show slotLine l = false
    rw [List.getElem?_map] at hjl
    cases hb : B[j]? with
    | none => rw [hb] at hjl; cases hjl
    | some b =>
      rw [hb] at hjl
      obtain rfl : renamedLine rename b = l := by simpa using hjl
      rw [slotLine_renamedLine]
      exact hafter j b hj hb
  have hOlast : lastSlotIdx? O = some p := by
    apply lastSlotIdx?_of O p (renamedLine rename lp)
    · show O[p]? = _
      rw [pyInsert_getElem?_lt hple (by omega), hRp]
    · rw [slotLine_renamedLine]
      exact hslp
    · intro j l hj hjl
      by_cases hje : j = p + 1
      · subst hje
        rw [hOc] at hjl
        obtain rfl : correctRun B = l := by simpa using hjl
        exact slotLine_correctRun B
      · have hj2 : p + 1 < j := by omega
        rw [pyInsert_getElem?_gt hple hj2] at hjl
        exact hRafter (j - 1) l (by omega) hjl
  refine ⟨hOc, hOlast, ?_, ?_⟩
  · intro l hl hs
    rcases pyInsert_mem hl with hl | rfl
    · exact depth0_renamed rename hdep l hl hs
    · rw [slotLine_correctRun] at hs
      exact absurd hs (by simp)
  · intro i l hil hrl
    by_cases hie : i = p + 1
    · exact hie
    · exfalso
      rcases Nat.lt_or_ge i (p + 1) with hi | hi
      · rw [pyInsert_getElem?_lt hple hi] at hil
        have := noRun_renamed rename hnorun l (List.getElem?_mem hil)
        rw [hrl] at this
        exact absurd this (by simp)
      · have hi2 : p + 1 < i := by omega
        rw [pyInsert_getElem?_gt hple hi2] at hil
        have := noRun_renamed rename hnorun l (List.getElem?_mem hil)
        rw [hrl] at this
        exact absurd this (by simp)

lemma clean_directiveOk {B : List String} (sect : Option String) (rename : Bool)
    (hne : B ≠ [])
    (hnorun : ∀ l ∈ B, matchRunL l.data = false)
    (hdep : ∀ l ∈ B, slotLine l = true → indentOf l = 0) :
    directiveOk B (process_block_full B sect false rename).1 := by
  cases hslot : lastSlotIdx? B with
  | none =>
    rw [process_clean_noslot sect rename hne hnorun hslot]
    intro d q hq
    have h0 : lastSlotAt? (B.map (renamedLine rename)) d = none :=
      lastSlotAt?_depth0_none (by rw [lastSlotIdx?_map_renamed]; exact hslot) d
    rw [h0] at hq
    cases hq
  | some p =>
    rw [process_clean_slot sect rename hnorun hdep hslot]
    obtain ⟨hOc, hOlast, hOdep, hOrun⟩ := pyInsert_facts rename hnorun hdep hslot
    intro d q hq
    rw [lastSlotAt?_depth0_some hOlast hOdep] at hq
    by_cases hd : d = 0
    · rw [if_pos hd] at hq
      obtain rfl : p = q := by simpa using hq
      exact ⟨hOc, hOrun⟩
    · rw [if_neg hd] at hq
      cases hq

lemma renamedLine_map_invariant (rename : Bool) (B : List String) :
    (B.map (renamedLine rename)).map (renamedLine rename) = B.map (renamedLine rename) := by
  rw [List.map_map]
  have : renamedLine rename ∘ renamedLine rename = renamedLine rename :=
    funext (renamedLine_idem rename)
  rw [this]

lemma renameCond_renamedLine (rename : Bool) (l : String) :
    (rename && renameCond (renamedLine rename l)) = false := by
  cases rename with
  | false => rfl
  | true =>
    rw [Bool.true_and]
    unfold renamedLine
    by_cases h : renameCond l
    · rw [if_pos (by simp [h]), renameCond_renameApply h]
    · rw [if_neg (by simp [h])]
      simpa using h

lemma renChanges_nil_of (rename : Bool) (sect : Option String) {L : List String}
    (h : ∀ l ∈ L, (rename && renameCond l) = false) :
    renChanges rename sect L = [] := by
  unfold renChanges
  rw [List.filter_eq_nil_iff.mpr (by intro a ha; simp [h a ha])]
  rfl

lemma clean_idem {B : List String} (sect : Option String) (rename : Bool)
    (hnorun : ∀ l ∈ B, matchRunL l.data = false)
    (hdep : ∀ l ∈ B, slotLine l = true → indentOf l = 0) :
    process_block_full (process_block_full B sect false rename).1 sect false rename
      = ((process_block_full B sect false rename).1, []) := by
  by_cases hne : B = []
  · subst hne; rfl
  cases hslot : lastSlotIdx? B with
  | none =>
    rw [process_clean_noslot sect rename hne hnorun hslot]
    have hRne : B.map (renamedLine rename) ≠ [] := by simp [hne]
    have hRnorun := noRun_renamed rename hnorun
    have hRnoslot : lastSlotIdx? (B.map (renamedLine rename)) = none := by
      rw [lastSlotIdx?_map_renamed]; exact hslot
    rw [process_clean_noslot sect rename hRne hRnorun hRnoslot]
    rw [renamedLine_map_invariant]
    rw [renChanges_nil_of rename sect (by
      intro l hl
      obtain ⟨l0, _, rfl⟩ := List.mem_map.mp hl
      exact renameCond_renamedLine rename l0)]
  | some p =>
    rw [process_clean_slot sect rename hnorun hdep hslot]
    obtain ⟨hOc, hOlast, hOdep, hOrun⟩ := pyInsert_facts rename hnorun hdep hslot
    set R := B.map (renamedLine rename) with hR
    set O := pyInsert (p + 1) (correctRun B) R with hO
    have hOmem : ∀ l ∈ O, l ∈ R ∨ l = correctRun B := fun l hl => pyInsert_mem hl
    have hnO : hasNormal O = hasNormal B := by
      rw [hO, hasNormal_pyInsert (p + 1) (normal_correctRun B) R, hR, hasNormal_renamed]
    have hcO : correctRun O = correctRun B := by
      unfold correctRun
      rw [hnO]
    have hfix : ∀ l ∈ O, renamedLine rename l = l := by
      intro l hl
      rcases hOmem l hl with hl2 | rfl
      · obtain ⟨l0, _, rfl⟩ := List.mem_map.mp hl2
        exact renamedLine_idem rename l0
      · show renamedLine rename (correctRun B) = _
        unfold renamedLine
        rw [if_neg]
        rw [renameCond_correctRun B]
        simp
    have hmapO : O.map (renamedLine rename) = O := by
      rw [List.map_congr_left fun a ha => hfix a ha]
      exact List.map_id' O
    have hchO : renChanges rename sect O = [] := by
      apply renChanges_nil_of
      intro l hl
      rcases hOmem l hl with hl2 | rfl
      · obtain ⟨l0, _, rfl⟩ := List.mem_map.mp hl2
        exact renameCond_renamedLine rename l0
      · rw [renameCond_correctRun B]
        simp
    have hOne : O ≠ [] := by
      intro h
      rw [h] at hOc
      simp at hOc
    have hbne : (O.isEmpty || false) = false := by simp [List.isEmpty_iff, hOne]
    have htabO : buildTable O 0 [] = [(0, p)] := by
      rw [buildTable_depth0_some O p hOlast hOdep 0 [], Nat.zero_add]
      rfl
    have hremO : removalPass sect (correctRun O) [(0, p)] 0 O = (O, []) := by
      apply removalPass_keepAll
      intro j l hj hrl
      have hje : j = p + 1 := hOrun j l hj hrl
      subst hje
      have hlc : l = correctRun B := by
        rw [hOc] at hj
        exact (Option.some_inj.mp hj).symm
      constructor
      · refine ⟨p, ?_, by omega⟩
        rw [hlc, indentOf_correctRun]
        rfl
      · rw [hlc, hcO]
    simp only [process_block_full, hbne, Bool.false_eq_true, if_false, pass1_eq]
    rw [hmapO, hchO, htabO, hremO]
    rw [show sortPairs [(0, p)] = [(0, p)] from rfl, List.foldl_cons, List.foldl_nil]
    have hskip : (O[p + 1]? == some (correctRun O)) = true := by
      rw [hOc, hcO]
      simp
    simp [insertStep, hskip]

/-! ### Tokenizer lemmas -/

lemma process_excluded (b : List String) (s : Option String) (rename : Bool) :
    process_block_full b s true rename = (b, []) := by
  unfold process_block_full
  simp

lemma stripPrefixCI_cons {p : Char} {ps : List Char} {s : List Char}
    (h : (stripPrefixCI (p :: ps) s).isSome = true) :
    ∃ c cs, s = c :: cs ∧ c.toLower = p.toLower ∧ (stripPrefixCI ps cs).isSome = true := by
  cases s with
  | nil => simp [stripPrefixCI] at h
  | cons c cs =>
    rw [stripPrefixCI] at h
    by_cases hc : p.toLower = c.toLower
    · rw [if_pos hc] at h
      exact ⟨c, cs, rfl, hc.symm, h⟩
    · rw [if_neg hc] at h
      simp at h

lemma endif_shape {s : List Char} (h : matchEndifL s = true) :
    ∃ c0 c1 rest, dropSpaces s = c0 :: c1 :: rest ∧ c0.toLower = 'e' ∧ c1.toLower = 'n' := by
  unfold matchEndifL at h
  rw [show ("endif".data : List Char) = 'e' :: 'n' :: 'd' :: 'i' :: 'f' :: [] from rfl] at h
  obtain ⟨c0, cs, h0, hc0, h1⟩ := stripPrefixCI_cons h
  obtain ⟨c1, cs1, h2, hc1, _⟩ := stripPrefixCI_cons h1
  exact ⟨c0, c1, cs1, by rw [h0, h2], hc0, hc1⟩

lemma endif_not_swap {s : List Char} (h : matchEndifL s = true) : matchSwapL s = none := by
  obtain ⟨c0, c1, rest, hd, h0, h1⟩ := endif_shape h
  unfold matchSwapL
  rw [hd]
  have hif : stripPrefixCI "if".data (c0 :: c1 :: rest) = none := by
    rw [show ("if".data : List Char) = 'i' :: 'f' :: [] from rfl, stripPrefixCI, if_neg]
    intro hh
    rw [h0] at hh
    exact absurd hh (by decide)
  have helse : stripPrefixCI "else if".data (c0 :: c1 :: rest) = none := by
    rw [show ("else if".data : List Char)
          = 'e' :: 'l' :: 's' :: 'e' :: ' ' :: 'i' :: 'f' :: [] from rfl]
    rw [stripPrefixCI, if_pos (by rw [h0]; rfl), stripPrefixCI, if_neg]
    intro hh
    rw [h1] at hh
    exact absurd hh (by decide)
  simp only [hif, helse]

lemma dropWhileTrail_singleton {c : Char} (hc : isPySpace c = false) :
    ∀ xs : List Char, ∃ ys, (xs ++ [c]).dropWhile isPySpace = ys ++ [c]
  | [] => ⟨[], by simp [List.dropWhile, hc]⟩
  | a :: xs => by
    by_cases ha : isPySpace a
    · obtain ⟨ys, hys⟩ := dropWhileTrail_singleton hc xs
      exact ⟨ys, by simp [List.dropWhile, ha, hys]⟩
    · exact ⟨a :: xs, by simp [List.dropWhile, ha]⟩

lemma stripTrail_head {c : Char} (hc : isPySpace c = false) (cs : List Char) :
    ∃ ys, stripTrail (c :: cs) = c :: ys := by
  unfold stripTrail
  rw [List.reverse_cons]
  obtain ⟨ys, hys⟩ := dropWhileTrail_singleton hc cs.reverse
  rw [show (cs.reverse ++ [c]).dropWhile isPySpace = ys ++ [c] from hys]
  exact ⟨ys.reverse, by simp⟩

lemma isPrefixOf_false_of_ne_head {a b : Char} (h : a ≠ b) (as bs : List Char) :
    (a :: as).isPrefixOf (b :: bs) = false := by
  simp [List.isPrefixOf, h]

lemma not_space_of_toLower {c0 : Char} {x : Char} (h : c0.toLower = x)
    (hx : x = 'e' ∨ x = 'i') : isPySpace c0 = false := by
  by_contra hcon
  simp only [Bool.not_eq_false] at hcon
  rcases space_cases hcon with h2 | h2 | h2 | h2 | h2 | h2 <;> subst h2 <;>
    rcases hx with rfl | rfl <;> exact absurd h (by decide)

lemma endif_not_header {e : String} (h : matchEndifL e.data = true) :
    isHeaderLine e = false := by
  obtain ⟨c0, c1, rest, hd, h0, h1⟩ := endif_shape h
  unfold isHeaderLine
  have hc0 : isPySpace c0 = false := not_space_of_toLower h0 (Or.inl rfl)
  obtain ⟨ys, hys⟩ := stripTrail_head hc0 (c1 :: rest)
  rw [show stripBoth e.data = stripTrail (dropSpaces e.data) from rfl, hd, hys]
  have hne : ('[' : Char) ≠ c0 := by
    intro hh
    rw [← hh] at h0
    exact absurd h0 (by decide)
  rw [show ("[CommandList".data : List Char) = '[' :: "CommandList".data from rfl,
      show ("[TextureOverride".data : List Char) = '[' :: "TextureOverride".data from rfl]
  simp [isPrefixOf_false_of_ne_head hne]

lemma swap_shape {s : List Char} {d : String} (h : matchSwapL s = some d) :
    ∃ c0 cs, dropSpaces s = c0 :: cs ∧ (c0.toLower = 'i' ∨ c0.toLower = 'e') := by
  unfold matchSwapL at h
  cases hs : dropSpaces s with
  | nil =>
    rw [hs] at h
    rw [show ("if".data : List Char) = 'i' :: 'f' :: [] from rfl] at h
    rw [show ("else if".data : List Char)
          = 'e' :: 'l' :: 's' :: 'e' :: ' ' :: 'i' :: 'f' :: [] from rfl] at h
    simp [stripPrefixCI] at h
  | cons c0 cs =>
    refine ⟨c0, cs, rfl, ?_⟩
    simp only [hs] at h
    by_cases hc : ('i' : Char).toLower = c0.toLower
    · left
      simpa using hc.symm
    · have hif : stripPrefixCI ('i' :: 'f' :: []) (c0 :: cs) = none := by
        rw [stripPrefixCI, if_neg hc]
      simp only [hif] at h
      by_cases hc2 : ('e' : Char).toLower = c0.toLower
      · right
        simpa using hc2.symm
      · have helse : stripPrefixCI ('e' :: 'l' :: 's' :: 'e' :: ' ' :: 'i' :: 'f' :: [])
            (c0 :: cs) = none := by
          rw [stripPrefixCI, if_neg hc2]
        simp only [helse] at h
        simp at h

lemma swap_not_header {w : String} {d : String} (h : matchSwapL w.data = some d) :
    isHeaderLine w = false := by
  obtain ⟨c0, cs, hd, hc0⟩ := swap_shape h
  unfold isHeaderLine
  have hsp : isPySpace c0 = false := by
    rcases hc0 with h0 | h0
    · exact not_space_of_toLower h0 (Or.inr rfl)
    · exact not_space_of_toLower h0 (Or.inl rfl)
  obtain ⟨ys, hys⟩ := stripTrail_head hsp cs
  rw [show stripBoth w.data = stripTrail (dropSpaces w.data) from rfl, hd, hys]
  have hne : ('[' : Char) ≠ c0 := by
    intro hh
    rcases hc0 with h0 | h0 <;> rw [← hh] at h0 <;> exact absurd h0 (by decide)
  rw [show ("[CommandList".data : List Char) = '[' :: "CommandList".data from rfl,
      show ("[TextureOverride".data : List Char) = '[' :: "TextureOverride".data from rfl]
  simp [isPrefixOf_false_of_ne_head hne]

lemma stepLine_endif_outside (excl : List String) (rename : Bool) (st : TokState) (e : String)
    (hin : st.insideSection = false) (he : matchEndifL e.data = true) :
    stepLine excl rename st e = { st with newLines := st.newLines ++ [e] } := by
  simp only [stepLine, endif_not_header he, Bool.false_eq_true, if_false, endif_not_swap he]
  rw [hin]
  simp

lemma stepLine_swap (excl : List String) (rename : Bool) (st : TokState) (w : String)
    (d : String) (h : matchSwapL w.data = some d) :
    stepLine excl rename st w =
      { flushIfPending rename st with currentSwapvar := some d, blockLines := [w] } := by
  simp only [stepLine, swap_not_header h, Bool.false_eq_true, if_false, h]

lemma stepLine_excluded (excl : List String) (rename : Bool) (st : TokState) (line : String)
    (hh : isHeaderLine line = false) (hin : st.insideSection = true)
    (hex : st.insideExcluded = true) :
    (stepLine excl rename st line).newLines ++ (stepLine excl rename st line).blockLines
        = st.newLines ++ st.blockLines ++ [line] ∧
    (stepLine excl rename st line).allChanges = st.allChanges ∧
    (stepLine excl rename st line).insideSection = true ∧
    (stepLine excl rename st line).insideExcluded = true := by
  simp only [stepLine, hh, Bool.false_eq_true, if_false]
  cases hsw : matchSwapL line.data with
  | some d =>
    by_cases hbl : st.blockLines.isEmpty
    · simp [flushIfPending, hbl, List.isEmpty_iff.mp hbl, hin, hex]
    · simp [flushIfPending, hbl, flushBlock, hex, process_excluded, hin]
  | none =>
    by_cases hend : matchEndifL line.data
    · simp [hin, hend, flushBlock, hex, process_excluded]
    · simp [hin, hend, hex]

lemma runLines_excluded (excl : List String) (rename : Bool) :
    ∀ (body : List String) (st : TokState),
      (∀ l ∈ body, isHeaderLine l = false) →
      st.insideSection = true → st.insideExcluded = true →
      (runLines excl rename st body).newLines ++ (runLines excl rename st body).blockLines
          = st.newLines ++ st.blockLines ++ body ∧
      (runLines excl rename st body).allChanges = st.allChanges ∧
      (runLines excl rename st body).insideSection = true ∧
      (runLines excl rename st body).insideExcluded = true
  | [], st, _, hin, hex => ⟨by simp [runLines], rfl, hin, hex⟩
  | l :: body, st, hh, hin, hex => by
    have hstep := stepLine_excluded excl rename st l (hh l (by simp)) hin hex
    have ih := runLines_excluded excl rename body (stepLine excl rename st l)
      (fun x hx => hh x (by simp [hx])) hstep.2.2.1 hstep.2.2.2
    have hrun : runLines excl rename st (l :: body)
        = runLines excl rename (stepLine excl rename st l) body := rfl
    rw [hrun]
    refine ⟨?_, ?_, ih.2.2.1, ih.2.2.2⟩
    · rw [ih.1, hstep.1]
      simp
    · rw [ih.2.1, hstep.2.1]

lemma stepLine_flags (excl : List String) (rename : Bool) (st : TokState) (line : String)
    (hh : isHeaderLine line = false) :
    (stepLine excl rename st line).insideSection = st.insideSection ∧
    (stepLine excl rename st line).insideExcluded = st.insideExcluded ∧
    (stepLine excl rename st line).currentSection = st.currentSection := by
  simp only [stepLine, hh, Bool.false_eq_true, if_false]
  cases hsw : matchSwapL line.data with
  | some d =>
    by_cases hbl : st.blockLines.isEmpty <;> simp [flushIfPending, flushBlock, hbl]
  | none =>
    by_cases hin : st.insideSection <;> by_cases hend : matchEndifL line.data <;>
      simp [hin, hend, flushBlock]

lemma runLines_flags (excl : List String) (rename : Bool) :
    ∀ (lines : List String) (st : TokState),
      (∀ l ∈ lines, isHeaderLine l = false) →
      (runLines excl rename st lines).insideSection = st.insideSection ∧
      (runLines excl rename st lines).insideExcluded = st.insideExcluded ∧
      (runLines excl rename st lines).currentSection = st.currentSection
  | [], st, _ => ⟨rfl, rfl, rfl⟩
  | l :: lines, st, hh => by
    have hstep := stepLine_flags excl rename st l (hh l (by simp))
    have ih := runLines_flags excl rename lines (stepLine excl rename st l)
      (fun x hx => hh x (by simp [hx]))
    have hrun : runLines excl rename st (l :: lines)
        = runLines excl rename (stepLine excl rename st l) lines := rfl
    rw [hrun]
    exact ⟨ih.1.trans hstep.1, ih.2.1.trans hstep.2.1, ih.2.2.trans hstep.2.2⟩

/-! ### Routing correspondence for the chunked tokenizer -/

lemma chunksOut_append (rename : Bool) :
    ∀ a b : List Chunk, chunksOut rename (a ++ b) = chunksOut rename a ++ chunksOut rename b
  | [], _ => rfl
  | c :: a, b => by
    rw [List.cons_append, chunksOut, chunksOut, chunksOut_append rename a b, List.append_assoc]

lemma chunksChanges_append (rename : Bool) :
    ∀ a b : List Chunk,
      chunksChanges rename (a ++ b) = chunksChanges rename a ++ chunksChanges rename b
  | [], _ => rfl
  | c :: a, b => by
    rw [List.cons_append, chunksChanges, chunksChanges, chunksChanges_append rename a b,
        List.append_assoc]

lemma chunksLines_append :
    ∀ a b : List Chunk, chunksLines (a ++ b) = chunksLines a ++ chunksLines b
  | [], _ => rfl
  | c :: a, b => by
    rw [List.cons_append, chunksLines, chunksLines, chunksLines_append a b, List.append_assoc]

lemma TokRel_flushBlock (rename : Bool) {st : TokState} {cst : ChunkState}
    (h : TokRel rename st cst) : TokRel rename (flushBlock rename st) (cFlushBlock cst) := by
  obtain ⟨hbl, hsec, hins, hexc, hnew, hch⟩ := h
  unfold TokRel flushBlock cFlushBlock
  simp [chunksOut_append, chunksChanges_append, chunkOut, chunkChanges, chunksOut,
        chunksChanges, hbl, hsec, hins, hexc, hnew, hch]

lemma TokRel_flushIfPending (rename : Bool) {st : TokState} {cst : ChunkState}
    (h : TokRel rename st cst) :
    TokRel rename (flushIfPending rename st) (cFlushIfPending cst) := by
  unfold flushIfPending cFlushIfPending
  by_cases hbl : st.blockLines.isEmpty
  · rw [if_pos hbl, if_pos (by rw [← h.1]; exact hbl)]
    exact h
  · rw [if_neg hbl, if_neg (by rw [← h.1]; exact hbl)]
    exact TokRel_flushBlock rename h

lemma TokRel_step (excl : List String) (rename : Bool) {st : TokState} {cst : ChunkState}
    (h : TokRel rename st cst) (line : String) :
    TokRel rename (stepLine excl rename st line) (cStepLine excl cst line) := by
  obtain ⟨hbl, hsec, hins, hexc, hnew, hch⟩ := h
  have hrel : TokRel rename st cst := ⟨hbl, hsec, hins, hexc, hnew, hch⟩
  by_cases hh : isHeaderLine line
  · simp only [stepLine, cStepLine, hh, if_true]
    obtain ⟨f1, f2, f3, f4, f5, f6⟩ := TokRel_flushIfPending rename hrel
    exact ⟨rfl, rfl, rfl, rfl,
      by rw [chunksOut_append, f5]; rfl,
      by rw [chunksChanges_append, f6]; simp [chunksChanges, chunkChanges]⟩
  · simp only [stepLine, cStepLine, hh, Bool.false_eq_true, if_false]
    cases hsw : matchSwapL line.data with
    | some d =>
      obtain ⟨f1, f2, f3, f4, f5, f6⟩ := TokRel_flushIfPending rename hrel
      exact ⟨rfl, f2, f3, f4, f5, f6⟩
    | none =>
      by_cases hin : st.insideSection = true
      · by_cases hend : matchEndifL line.data = true
        · have c1 : (st.insideSection && matchEndifL line.data) = true := by
            rw [hin, hend]
            rfl
          have c2 : (cst.insideSection && matchEndifL line.data) = true := by
            rw [← hins]
            exact c1
          rw [if_pos c1, if_pos c2]
          have haug : TokRel rename { st with blockLines := st.blockLines ++ [line] }
              { cst with blockLines := cst.blockLines ++ [line] } :=
            ⟨by simp [hbl], hsec, hins, hexc, hnew, hch⟩
          obtain ⟨f1, f2, f3, f4, f5, f6⟩ := TokRel_flushBlock rename haug
          exact ⟨f1, f2, f3, f4, f5, f6⟩
        · have c1 : (st.insideSection && matchEndifL line.data) = false := by
            rw [hin]
            simpa using hend
          have c2 : (cst.insideSection && matchEndifL line.data) = false := by
            rw [← hins]
            exact c1
          rw [if_neg (by rw [c1]; simp), if_pos hin, if_neg (by rw [c2]; simp), if_pos (hins ▸ hin)]
          exact ⟨by simp [hbl], hsec, hins, hexc, hnew, hch⟩
      · have hin2 : st.insideSection = false := by simpa using hin
        have c1 : (st.insideSection && matchEndifL line.data) = false := by
          rw [hin2]
          rfl
        have c2 : (cst.insideSection && matchEndifL line.data) = false := by
          rw [← hins]
          exact c1
        have hin3 : cst.insideSection = false := hins ▸ hin2
        rw [if_neg (by rw [c1]; simp), if_neg (by rw [hin2]; simp),
            if_neg (by rw [c2]; simp), if_neg (by rw [hin3]; simp)]
        exact ⟨hbl, hsec, hins, hexc,
          by rw [chunksOut_append, hnew]; rfl,
          by rw [chunksChanges_append, hch]; simp [chunksChanges, chunkChanges]⟩

lemma TokRel_run (excl : List String) (rename : Bool) :
    ∀ (lines : List String) (st : TokState) (cst : ChunkState), TokRel rename st cst →
      TokRel rename (runLines excl rename st lines) (runChunks excl cst lines)
  | [], _, _, h => h
  | l :: lines, st, cst, h =>
    TokRel_run excl rename lines (stepLine excl rename st l) (cStepLine excl cst l)
      (TokRel_step excl rename h l)

lemma cFlushIfPending_blockLines (cst : ChunkState) :
    (cFlushIfPending cst).blockLines = [] := by
  unfold cFlushIfPending
  by_cases hbl : cst.blockLines.isEmpty
  · rw [if_pos hbl]
    exact List.isEmpty_iff.mp hbl
  · rw [if_neg hbl]
    rfl

lemma chunksLines_flushIfPending (cst : ChunkState) :
    chunksLines (cFlushIfPending cst).chunks ++ (cFlushIfPending cst).blockLines
      = chunksLines cst.chunks ++ cst.blockLines := by
  unfold cFlushIfPending
  by_cases hbl : cst.blockLines.isEmpty
  · rw [if_pos hbl]
  · rw [if_neg hbl]
    unfold cFlushBlock
    simp [chunksLines_append, chunksLines, chunkLines]

lemma chunksLines_step (excl : List String) (cst : ChunkState) (line : String) :
    (chunksLines (cStepLine excl cst line).chunks ++ (cStepLine excl cst line).blockLines).Perm
      (chunksLines cst.chunks ++ cst.blockLines ++ [line]) := by
  by_cases hh : isHeaderLine line
  · simp only [cStepLine, hh, if_true]
    rw [chunksLines_append]
    have h2 := chunksLines_flushIfPending cst
    rw [cFlushIfPending_blockLines, List.append_nil] at h2
    rw [h2]
    simp [chunksLines, chunkLines]
  · simp only [cStepLine, hh, Bool.false_eq_true, if_false]
    cases hsw : matchSwapL line.data with
    | some d =>
      have h2 := chunksLines_flushIfPending cst
      rw [cFlushIfPending_blockLines, List.append_nil] at h2
      show (chunksLines (cFlushIfPending cst).chunks ++ [line]).Perm _
      rw [h2]
    | none =>
      by_cases hin : cst.insideSection = true
      · by_cases hend : matchEndifL line.data = true
        · have c1 : (cst.insideSection && matchEndifL line.data) = true := by
            rw [hin, hend]
            rfl
          rw [if_pos c1]
          show (chunksLines (cst.chunks ++ [Chunk.block (cst.blockLines ++ [line]) _ _])
              ++ []).Perm _
          rw [chunksLines_append, List.append_nil]
          simp [chunksLines, chunkLines]
        · have c1 : (cst.insideSection && matchEndifL line.data) = false := by
            rw [hin]
            simpa using hend
          rw [if_neg (by rw [c1]; simp), if_pos hin]
          simp
      · have hin2 : cst.insideSection = false := by simpa using hin
        have c1 : (cst.insideSection && matchEndifL line.data) = false := by
          rw [hin2]
          rfl
        rw [if_neg (by rw [c1]; simp), if_neg (by rw [hin2]; simp)]
        show (chunksLines (cst.chunks ++ [Chunk.verbatim line]) ++ cst.blockLines).Perm _
        rw [chunksLines_append, List.append_assoc, List.append_assoc]
        exact List.Perm.append_left _ List.perm_append_comm

lemma chunksLines_run (excl : List String) :
    ∀ (lines : List String) (cst : ChunkState),
      (chunksLines (runChunks excl cst lines).chunks
          ++ (runChunks excl cst lines).blockLines).Perm
        (chunksLines cst.chunks ++ cst.blockLines ++ lines)
  | [], cst => by simp [runChunks]
  | l :: lines, cst => by
    have hstep := chunksLines_step excl cst l
    have ih := chunksLines_run excl lines (cStepLine excl cst l)
    have hrun : runChunks excl cst (l :: lines)
        = runChunks excl (cStepLine excl cst l) lines := rfl
    rw [hrun]
    refine ih.trans ?_
    have he : (chunksLines cst.chunks ++ cst.blockLines ++ [l]) ++ lines
        = chunksLines cst.chunks ++ cst.blockLines ++ (l :: lines) := by simp
    rw [← he]
    exact hstep.append_right lines

lemma chunksLines_tokenize (excl : List String) (lines : List String) :
    (chunksLines (tokenizeChunks lines excl)).Perm lines := by
  unfold tokenizeChunks
  have h1 := chunksLines_run excl lines cInit
  have h2 := chunksLines_flushIfPending (runChunks excl cInit lines)
  rw [cFlushIfPending_blockLines, List.append_nil] at h2
  rw [h2]
  simpa [cInit, chunksLines] using h1

lemma process_ini_eq_chunks (lines excl : List String) (rename : Bool) :
    process_ini_preview lines excl rename
      = (chunksChanges rename (tokenizeChunks lines excl),
         chunksOut rename (tokenizeChunks lines excl)) := by
  unfold process_ini_preview tokenizeChunks
  have hinit : TokRel rename initState cInit := ⟨rfl, rfl, rfl, rfl, rfl, rfl⟩
  have hrun := TokRel_run excl rename lines initState cInit hinit
  obtain ⟨_, _, _, _, f5, f6⟩ := TokRel_flushIfPending rename hrun
  show ((flushIfPending rename (runLines excl rename initState lines)).allChanges,
        (flushIfPending rename (runLines excl rename initState lines)).newLines) = _
  rw [f5, f6]

/-! ### Change-tag bookkeeping and further support lemmas -/

lemma isRenamedRec_of_removed {ch : Change} (h : isRemovedRec ch = true) :
    isRenamedRec ch = false := by
  cases ch <;> simp_all [isRemovedRec, isRenamedRec]

lemma isRenamedRec_of_added {ch : Change} (h : isAddedRec ch = true) :
    isRenamedRec ch = false := by
  cases ch <;> simp_all [isAddedRec, isRenamedRec]

lemma isRemovedRec_of_renamed {ch : Change} (h : isRenamedRec ch = true) :
    isRemovedRec ch = false ∧ isAddedRec ch = false := by
  cases ch <;> simp_all [isRemovedRec, isRenamedRec, isAddedRec]

lemma isRemovedRec_of_added {ch : Change} (h : isAddedRec ch = true) :
    isRemovedRec ch = false := by
  cases ch <;> simp_all [isAddedRec, isRemovedRec]

lemma isAddedRec_of_removed {ch : Change} (h : isRemovedRec ch = true) :
    isAddedRec ch = false := by
  cases ch <;> simp_all [isAddedRec, isRemovedRec]

lemma renChanges_tag (rename : Bool) (sect : Option String) (B : List String) :
    ∀ ch ∈ renChanges rename sect B, isRenamedRec ch = true := by
  intro ch hch
  unfold renChanges at hch
  obtain ⟨l, _, rfl⟩ := List.mem_map.mp hch
  rfl

lemma renChanges_eq_if (rename : Bool) (sect : Option String) (B : List String) :
    renChanges rename sect B
      = (if rename then B.filter renameCond else []).map (renRecord sect) := by
  unfold renChanges
  cases rename
  · simp
  · simp

lemma not_cond_of_run {l : String} (h : matchRunL l.data = true) : renameCond l = false := by
  by_contra hcon
  simp only [Bool.not_eq_false] at hcon
  obtain ⟨r, h0, _⟩ := dropSpaces_of_cond hcon
  rw [matchRunL_eq_false_of_head h0 (by decide)] at h
  exact absurd h (by simp)

lemma renamedLine_run_fix (rename : Bool) {l : String} (h : matchRunL l.data = true) :
    renamedLine rename l = l := by
  unfold renamedLine
  rw [if_neg]
  rw [not_cond_of_run h]
  simp

lemma flushIfPending_excluded (rename : Bool) {st : TokState}
    (hex : st.insideExcluded = true) :
    (flushIfPending rename st).newLines = st.newLines ++ st.blockLines ∧
    (flushIfPending rename st).allChanges = st.allChanges := by
  unfold flushIfPending
  by_cases hbl : st.blockLines.isEmpty
  · rw [if_pos hbl]
    exact ⟨by rw [List.isEmpty_iff.mp hbl]; simp, rfl⟩
  · rw [if_neg hbl]
    unfold flushBlock
    rw [hex]
    constructor <;> simp [process_excluded]

lemma filter_run_renamed (rename : Bool) (B : List String) :
    ((B.map (renamedLine rename)).filter fun l => matchRunL l.data)
      = (B.filter fun l => matchRunL l.data).map (renamedLine rename) := by
  rw [List.filter_map]
  congr 1
  apply List.filter_congr
  intro l _
  show matchRunL (renamedLine rename l).data = matchRunL l.data
  exact matchRunL_renamedLine rename l

/-! ### The claims -/

/-- C1 (counterexample): for the block `[run NNFix, ps-t0 NormalMap, endif]` the
transformed block violates directive correctness: the removal of the leading
stray directive shifts the recorded last-slot index, so the canonical directive
is inserted after `endif` rather than immediately after the slot assignment. -/
theorem directive_correct_C1_counterexample :
    ¬ directiveOk
        ["run = CommandList\\global\\ORFix\\NNFix\n", "ps-t0 = ResourceNormalMap\n", "endif\n"]
        (process_block_full
          ["run = CommandList\\global\\ORFix\\NNFix\n", "ps-t0 = ResourceNormalMap\n", "endif\n"]
          none false false).1 := by
  intro h
  exact absurd (h 0 0 (by decide)).1 (by decide)

/-- C1 (amended): for every non-empty, non-excluded block that contains no
directive line and whose slot assignments all sit at zero indentation, after
transformation the line immediately following the last slot assignment at each
depth equals the canonical directive chosen by the NormalMap-marker rule, and
no other directive line exists anywhere in the block. -/
theorem directive_correct_C1 (B : List String) (sect : Option String) (rename : Bool)
    (hne : B ≠ [])
    (hnorun : ∀ l ∈ B, matchRunL l.data = false)
    (hdep : ∀ l ∈ B, slotLine l = true → indentOf l = 0) :
    directiveOk B (process_block_full B sect false rename).1 :=
  clean_directiveOk sect rename hne hnorun hdep

theorem directive_correct_C1_witness :
    directiveOk ["ps-t0 = ResourceFoo\n", "endif\n"]
      (process_block_full ["ps-t0 = ResourceFoo\n", "endif\n"] none false false).1 :=
  directive_correct_C1 ["ps-t0 = ResourceFoo\n", "endif\n"] none false
    (by decide) (by decide) (by decide)

/-- C2 (counterexample): transform is not idempotent.  For the single-line
block `["    ps-t0 = a\n"]` the first application appends the directive at zero
indentation; the second application removes it again (its indentation, 0, is
not a key of the new block's slot table, which only holds depth 4) and
re-inserts it, so the second application reports a RemovedDirective and an
AddedDirective instead of no changes. -/
theorem idempotent_C2_counterexample :
    process_block_full (process_block_full ["    ps-t0 = a\n"] none false false).1
        none false false
      ≠ ((process_block_full ["    ps-t0 = a\n"] none false false).1, ([] : List Change)) := by
  decide

/-- C2 (amended): transform is idempotent on every block that contains no
directive line and whose slot assignments all sit at zero indentation: the
second application returns the first application's block unchanged together
with an empty change list. -/
theorem idempotent_C2 (B : List String) (sect : Option String) (rename : Bool)
    (hnorun : ∀ l ∈ B, matchRunL l.data = false)
    (hdep : ∀ l ∈ B, slotLine l = true → indentOf l = 0) :
    process_block_full (process_block_full B sect false rename).1 sect false rename
      = ((process_block_full B sect false rename).1, []) :=
  clean_idem sect rename hnorun hdep

theorem idempotent_C2_witness :
    process_block_full
        (process_block_full ["ps-t0 = ResourceX\n", "endif\n"] none false true).1
        none false true
      = ((process_block_full ["ps-t0 = ResourceX\n", "endif\n"] none false true).1, []) :=
  idempotent_C2 ["ps-t0 = ResourceX\n", "endif\n"] none true (by decide) (by decide)

/-- C4 (counterexample): on the example block with the stray NNFix directive,
the replacement directive is NOT inserted immediately after the last
slot-assignment line: the claimed output (directive before `endif`) differs
from the computed one. -/
theorem stray_directive_C4_counterexample :
    (process_block_full
        ["if $swapvar == 0\n", "ps-t0 = ResourceExtraDiffuse\n",
         "run = CommandList\\global\\ORFix\\NNFix\n", "ps-t1 = ResourceNormalMap\n",
         "endif\n"] none false true).1
      ≠ ["if $swapvar == 0\n", "ps-t1 = ResourceExtraDiffuse\n",
         "ps-t1 = ResourceNormalMap\n", "run = CommandList\\global\\ORFix\\ORFix\n",
         "endif\n"] := by
  decide

/-- C4 (amended): on the example block with the stray NNFix directive and
rename enabled, transform removes the stray directive (wrong target since
NormalMap is present) and inserts the correct ORFix directive at the stale
recorded position — after `endif`, not immediately after the last slot
assignment — reporting exactly one Renamed, one RemovedDirective and one
AddedDirective, in that order. -/
theorem stray_directive_C4 :
    process_block_full
        ["if $swapvar == 0\n", "ps-t0 = ResourceExtraDiffuse\n",
         "run = CommandList\\global\\ORFix\\NNFix\n", "ps-t1 = ResourceNormalMap\n",
         "endif\n"] none false true
      = (["if $swapvar == 0\n", "ps-t1 = ResourceExtraDiffuse\n",
          "ps-t1 = ResourceNormalMap\n", "endif\n",
          "run = CommandList\\global\\ORFix\\ORFix\n"],
         [Change.renamed none "ps-t0 = ResourceExtraDiffuse\n" "ps-t1 = ResourceExtraDiffuse\n",
          Change.removedRun none "run = CommandList\\global\\ORFix\\NNFix",
          Change.addedRun none "run = CommandList\\global\\ORFix\\ORFix"]) := by
  decide

/-- C6: on the two-slot example block with rename enabled, transform renames
the `ps-t0` Extra/Diffuse line to `ps-t1`, inserts the ORFix directive
immediately after the last slot-assignment line (before `endif`), and reports
exactly one Renamed and one AddedDirective change. -/
theorem rename_example_C6 :
    process_block_full
        ["if $swapvar == 0\n", "ps-t0 = ResourceExtraDiffuse\n",
         "ps-t1 = ResourceNormalMap\n", "endif\n"] none false true
      = (["if $swapvar == 0\n", "ps-t1 = ResourceExtraDiffuse\n",
          "ps-t1 = ResourceNormalMap\n", "run = CommandList\\global\\ORFix\\ORFix\n",
          "endif\n"],
         [Change.renamed none "ps-t0 = ResourceExtraDiffuse\n" "ps-t1 = ResourceExtraDiffuse\n",
          Change.addedRun none "run = CommandList\\global\\ORFix\\ORFix"]) := by
  decide

/-- C5: in every non-excluded block, the rename pass maps each line to itself
unless the rename option is on and the line matches `ps-t0\s*=` after
stripping and contains both "Extra" and "Diffuse", in which case the first
occurrence of `ps-t0` is rewritten to `ps-t1`; and the Renamed records of the
full transform are exactly one per such line (none when rename is off). -/
theorem rename_scope_C5 (B : List String) (sect : Option String) (rename : Bool) :
    (pass1 rename sect B).newBlock
        = B.map (fun l => if rename && renameCond l then renameApply l else l)
    ∧ (process_block_full B sect false rename).2.filter isRenamedRec
        = (if rename then B.filter renameCond else []).map (renRecord sect) := by
  constructor
  · rw [pass1_eq]
    rfl
  · by_cases hne : B = []
    · subst hne
      cases rename <;> rfl
    · have hbne : (B.isEmpty || false) = false := by simp [List.isEmpty_iff, hne]
      simp only [process_block_full, hbne, Bool.false_eq_true, if_false, pass1_eq]
      rw [List.filter_append, List.filter_append]
      rw [List.filter_eq_self.mpr fun ch hch => renChanges_tag rename sect B ch hch]
      rw [List.filter_eq_nil_iff.mpr fun ch hch => by
        simp [isRenamedRec_of_removed (removalPass_changes_tag _ _ _ _ _ ch hch)]]
      rw [List.filter_eq_nil_iff.mpr fun ch hch => by
        rcases insertFold_changes_tag _ _ _ _ ch hch with h | h
        · simp at h
        · simp [isRenamedRec_of_added h]]
      rw [List.append_nil, List.append_nil]
      exact renChanges_eq_if rename sect B

/-- C7: the tokenizer routes every input line exactly once: the chunk
decomposition recorded by the routing view consumes a permutation of the
input lines (each line lands verbatim in the output or in exactly one flushed
block, any pending block being flushed at end of input), and
`process_ini_preview` equals the concatenation, chunk by chunk, of verbatim
lines and transformed blocks (each block passed through the transformer
exactly once). -/
theorem routing_exactly_once_C7 (lines excl : List String) (rename : Bool) :
    (chunksLines (tokenizeChunks lines excl)).Perm lines
    ∧ process_ini_preview lines excl rename
        = (chunksChanges rename (tokenizeChunks lines excl),
           chunksOut rename (tokenizeChunks lines excl)) :=
  ⟨chunksLines_tokenize excl lines, process_ini_eq_chunks lines excl rename⟩

/-- C8: an `endif` met while no section is open is passed through to the
output verbatim and is not transformed: the tokenizer step appends it to the
output and changes nothing else, and the full run factors through that step. -/
theorem endif_outside_C8 (excl : List String) (rename : Bool)
    (pre : List String) (e : String) (post : List String)
    (hpre : ∀ l ∈ pre, isHeaderLine l = false)
    (he : matchEndifL e.data = true) :
    stepLine excl rename (runLines excl rename initState pre) e
        = { runLines excl rename initState pre with
            newLines := (runLines excl rename initState pre).newLines ++ [e] }
    ∧ runLines excl rename initState (pre ++ e :: post)
        = runLines excl rename
            (stepLine excl rename (runLines excl rename initState pre) e) post := by
  have hin : (runLines excl rename initState pre).insideSection = false :=
    (runLines_flags excl rename pre initState hpre).1
  constructor
  · exact stepLine_endif_outside excl rename _ e hin he
  · unfold runLines
    rw [List.foldl_append]
    rfl

theorem endif_outside_C8_witness :
    stepLine [] false (runLines [] false initState []) "endif\n"
        = { runLines [] false initState [] with
            newLines := (runLines [] false initState []).newLines ++ ["endif\n"] }
    ∧ runLines [] false initState ([] ++ "endif\n" :: [])
        = runLines [] false
            (stepLine [] false (runLines [] false initState []) "endif\n") [] :=
  endif_outside_C8 [] false [] "endif\n" [] (by simp) (by decide)

/-- C10: a swap-conditional open line met outside any section is not passed
through as outside text: the tokenizer flushes any pending block and starts a
new pending block holding exactly that line, with no section name and the
exclusion flag still false; consequently output order can differ from input
order, as the concrete two-line example shows. -/
theorem swap_outside_C10 (excl : List String) (rename : Bool)
    (pre : List String) (w : String) (d : String)
    (hpre : ∀ l ∈ pre, isHeaderLine l = false)
    (hw : matchSwapL w.data = some d) :
    (stepLine excl rename (runLines excl rename initState pre) w
        = { flushIfPending rename (runLines excl rename initState pre) with
            currentSwapvar := some d, blockLines := [w] }
      ∧ (runLines excl rename initState pre).currentSection = none
      ∧ (runLines excl rename initState pre).insideExcluded = false)
    ∧ process_ini_preview ["if $swapvar == 0\n", "x\n"] [] rename
        = ([], ["x\n", "if $swapvar == 0\n"]) := by
  refine ⟨⟨stepLine_swap excl rename _ w d hw, ?_, ?_⟩, ?_⟩
  · exact (runLines_flags excl rename pre initState hpre).2.2
  · exact (runLines_flags excl rename pre initState hpre).2.1
  · cases rename <;> decide

theorem swap_outside_C10_witness :
    process_ini_preview ["if $swapvar == 0\n", "x\n"] [] true
      = ([], ["x\n", "if $swapvar == 0\n"]) :=
  (swap_outside_C10 [] true [] "if $swapvar == 1\n" "1" (by simp) (by decide)).2

/-- C3: exclusion is absolute.  First, while inside an excluded section every
line up to the next section header passes straight through the tokenizer with
zero change records.  Second, a section whose header matches an auto-exclude
pattern is returned byte-identical with zero additional change records,
regardless of the rename option and of the caller-supplied manual exclusion
set. -/
theorem exclusion_absolute_C3 (excl : List String) (rename : Bool) :
    (∀ (st : TokState) (body : List String),
        (∀ l ∈ body, isHeaderLine l = false) →
        st.insideSection = true → st.insideExcluded = true →
        (runLines excl rename st body).newLines ++ (runLines excl rename st body).blockLines
            = st.newLines ++ st.blockLines ++ body
          ∧ (runLines excl rename st body).allChanges = st.allChanges)
    ∧ ∀ (pre : List String) (header : String) (body : List String),
        isHeaderLine header = true → autoExclude (pyStrip header) = true →
        (∀ l ∈ body, isHeaderLine l = false) →
        process_ini_preview (pre ++ header :: body) excl rename
          = ((process_ini_preview pre excl rename).1,
             (process_ini_preview pre excl rename).2 ++ header :: body) := by
  constructor
  · intro st body hbody hin hex
    have h := runLines_excluded excl rename body st hbody hin hex
    exact ⟨h.1, h.2.1⟩
  · intro pre header body hhead hauto hbody
    simp only [process_ini_preview]
    have hsplit : runLines excl rename initState (pre ++ header :: body)
        = runLines excl rename
            (stepLine excl rename (runLines excl rename initState pre) header) body := by
      unfold runLines
      rw [List.foldl_append]
      rfl
    rw [hsplit]
    have hstep : stepLine excl rename (runLines excl rename initState pre) header
        = { flushIfPending rename (runLines excl rename initState pre) with
            currentSection := some (pyStrip header), insideSection := true,
            insideExcluded := autoExclude (pyStrip header) || excl.contains (pyStrip header),
            currentSwapvar := none,
            newLines := (flushIfPending rename
              (runLines excl rename initState pre)).newLines ++ [header],
            blockLines := [] } := by
      simp only [stepLine, hhead, if_true]
    rw [hstep]
    set st2 : TokState := { flushIfPending rename (runLines excl rename initState pre) with
        currentSection := some (pyStrip header), insideSection := true,
        insideExcluded := autoExclude (pyStrip header) || excl.contains (pyStrip header),
        currentSwapvar := none,
        newLines := (flushIfPending rename
          (runLines excl rename initState pre)).newLines ++ [header],
        blockLines := [] } with hst2
    have hex2 : st2.insideExcluded = true := by
      simp [hst2, hauto]
    have hin2 : st2.insideSection = true := by
      simp [hst2]
    have h1 := runLines_excluded excl rename body st2 hbody hin2 hex2
    have h2 := flushIfPending_excluded rename h1.2.2.2
    have e1 : (flushIfPending rename (runLines excl rename st2 body)).allChanges
        = (flushIfPending rename (runLines excl rename initState pre)).allChanges := by
      rw [h2.2, h1.2.1]
    have e2 : (flushIfPending rename (runLines excl rename st2 body)).newLines
        = (flushIfPending rename (runLines excl rename initState pre)).newLines
          ++ header :: body := by
      rw [h2.1, h1.1]
      show st2.newLines ++ st2.blockLines ++ body = _
      rw [hst2]
      simp
    rw [e1, e2]

theorem exclusion_absolute_C3_witness :
    process_ini_preview
        ["[TextureOverrideCharacterIB]\n", "if $swapvar == 0\n",
         "ps-t0 = ResourceExtraDiffuse\n", "endif\n"] [] true
      = ([], ["[TextureOverrideCharacterIB]\n", "if $swapvar == 0\n",
              "ps-t0 = ResourceExtraDiffuse\n", "endif\n"]) := by
  have h := (exclusion_absolute_C3 [] true).2 [] "[TextureOverrideCharacterIB]\n"
    ["if $swapvar == 0\n", "ps-t0 = ResourceExtraDiffuse\n", "endif\n"]
    (by decide) (by decide) (by decide)
  simpa using h

/-- C9: the transformer handles directive lines only as the exact
zero-indentation canonical string: every directive line in the output equals
`correct_run`, which has no leading whitespace (so an indented directive is
never kept and every inserted directive is unindented); the number of
directive lines is conserved up to the Removed/Added records; and every
indented input directive line is recorded as a RemovedDirective. -/
theorem directive_zero_indent_C9 (B : List String) (sect : Option String) (rename : Bool)
    (hne : B ≠ []) :
    (∀ l ∈ (process_block_full B sect false rename).1, matchRunL l.data = true →
        l = correctRun B)
    ∧ indentOf (correctRun B) = 0
    ∧ (B.filter fun l => matchRunL l.data).length
          + ((process_block_full B sect false rename).2.filter isAddedRec).length
        = ((process_block_full B sect false rename).2.filter isRemovedRec).length
          + ((process_block_full B sect false rename).1.filter fun l => matchRunL l.data).length
    ∧ ∀ l ∈ B, matchRunL l.data = true → 0 < indentOf l →
        Change.removedRun sect (pyStrip l) ∈ (process_block_full B sect false rename).2 := by
  have hbne : (B.isEmpty || false) = false := by simp [List.isEmpty_iff, hne]
  simp only [process_block_full, hbne, Bool.false_eq_true, if_false, pass1_eq]
  set Rm := B.map (renamedLine rename) with hRm
  set T := buildTable B 0 [] with hT
  set c := correctRun B with hc
  set rem := removalPass sect c T 0 Rm with hrem
  set ins := (sortPairs T).foldl (insertStep sect c) (rem.1, T, []) with hins
  refine ⟨?_, indentOf_correctRun B, ?_, ?_⟩
  · intro l hl hrl
    rcases insertFold_out_mem sect c (sortPairs T) (rem.1, T, []) l hl with h | h
    · exact removalPass_out_run sect c T Rm 0 l h hrl
    · exact h
  · have e1 : (Rm.filter fun l => matchRunL l.data).length
        = (B.filter fun l => matchRunL l.data).length := by
      rw [hRm, filter_run_renamed, List.length_map]
    have e2 := removalPass_count sect c T Rm 0
    have e3 := insertFold_count sect c (by rw [hc]; exact matchRunL_correctRun B)
      (sortPairs T) (rem.1, T, [])
    rw [← hins] at e3
    rw [← hrem] at e2
    simp only [List.length_nil] at e3
    have f1 : ((renChanges rename sect B ++ rem.2 ++ ins.2.2).filter isAddedRec).length
        = ins.2.2.length := by
      rw [List.filter_append, List.filter_append]
      rw [List.filter_eq_nil_iff.mpr fun ch hch => by
            simp [(isRemovedRec_of_renamed (renChanges_tag rename sect B ch hch)).2]]
      rw [List.filter_eq_nil_iff.mpr fun ch hch => by
            simp [isAddedRec_of_removed (removalPass_changes_tag _ _ _ _ _ ch hch)]]
      rw [List.filter_eq_self.mpr fun ch hch => by
            rcases insertFold_changes_tag _ _ _ _ ch hch with h | h
            · simp at h
            · exact h]
      simp
    have f2 : ((renChanges rename sect B ++ rem.2 ++ ins.2.2).filter isRemovedRec).length
        = rem.2.length := by
      rw [List.filter_append, List.filter_append]
      rw [List.filter_eq_nil_iff.mpr fun ch hch => by
            simp [(isRemovedRec_of_renamed (renChanges_tag rename sect B ch hch)).1]]
      rw [List.filter_eq_self.mpr fun ch hch =>
            removalPass_changes_tag _ _ _ _ _ ch hch]
      rw [List.filter_eq_nil_iff.mpr fun ch hch => by
            rcases insertFold_changes_tag _ _ _ _ ch hch with h | h
            · simp at h
            · simp [isRemovedRec_of_added h]]
      simp
    rw [f1, f2]
    omega
  · intro l hl hrl hind
    have hfix : renamedLine rename l = l := renamedLine_run_fix rename hrl
    have hlR : l ∈ Rm := by
      rw [hRm]
      exact List.mem_map.mpr ⟨l, hl, hfix⟩
    have hlc : l ≠ c := by
      intro heq
      rw [heq, hc, indentOf_correctRun] at hind
      exact absurd hind (by simp)
    have hmem := removalPass_removed_mem sect c T Rm 0 l hlR hrl hlc
    exact List.mem_append.mpr (Or.inl (List.mem_append.mpr (Or.inr hmem)))

theorem directive_zero_indent_C9_witness :
    Change.removedRun none (pyStrip "  run = CommandList\\global\\ORFix\\NNFix\n")
      ∈ (process_block_full ["  run = CommandList\\global\\ORFix\\NNFix\n", "ps-t0 = X\n"]
          none false false).2 :=
  (directive_zero_indent_C9
      ["  run = CommandList\\global\\ORFix\\NNFix\n", "ps-t0 = X\n"] none false
      (by decide)).2.2.2
    "  run = CommandList\\global\\ORFix\\NNFix\n" (by decide) (by decide) (by decide)

end ORFix
